import Mathlib

/-!
Verification of the RU-PATH bus-route planning core: the index build of
`data_loader.py` and the planner of `routing_engine.py`, shallowly embedded
in Lean.  Python dictionaries are modelled as insertion-ordered association
lists (matching dict semantics: assignment to an existing key keeps its
position), Python sets as insertion-ordered duplicate-free lists (a
deterministic refinement of set iteration order), and the `difflib`
similarity score as an abstract parameter `sim : String → String → Rat`
(the planner and resolver logic never inspect it beyond comparisons with
the fixed cutoffs).
-/

namespace RUPath

/-- A record of `Buildings.json`: one building of a campus, with its raw
nearby bus-stop labels (field `bus_stops`). -/
structure RawBuilding where
  name : String
  bus_stops : List String
deriving Repr, DecidableEq

/-- A record of `rutgers_bus_routes.json`: a route id and its ordered stop
records, each stop record reduced to its `stop_name` string (the JSON value
of `s.get("stop_name") or ""`, before stripping). -/
structure RawRoute where
  route_id : String
  stops : List String
deriving Repr, DecidableEq

/-- The value stored in `buildings_by_name` (and the pseudo-building built
by `_resolve_place` for a bare stop, whose `campus` is `None`). -/
structure Building where
  name : String
  campus : Option String
  bus_stops : List String
deriving Repr, DecidableEq

/-- One leg of a compressed plan, as built by `_build_legs` and by the
direct branch of `plan_building_to_building`; `route_id` is `None` when no
route was identified for the leg. -/
structure Leg where
  route_id : Option String
  from_stop : String
  to_stop : String
  stops : List String
deriving Repr, DecidableEq

/-- The tagged result dictionary of `plan_building_to_building`:
`{"type": "error", "message": m}` or the `"bus_route"` record. -/
inductive PlanResult where
  | planError (message : String)
  | busRoute (origin_building dest_building : Building)
      (origin_stop dest_stop : String)
      (stop_path : List String) (legs : List Leg)
deriving Repr, DecidableEq

/-- Python dict lookup `m.get(k)` on an association list. -/
def dictGet? {α β : Type} [BEq α] (m : List (α × β)) (k : α) : Option β :=
  (m.find? (fun p => p.1 == k)).map Prod.snd

/-- Python dict lookup with default, `m.get(k, d)`. -/
def dictGetD {α β : Type} [BEq α] (m : List (α × β)) (k : α) (d : β) : β :=
  (dictGet? m k).getD d

/-- Python dict assignment `m[k] = v`: overwrite in place if the key
exists (keeping its position), else append. -/
def dictInsert {α β : Type} [BEq α] (m : List (α × β)) (k : α) (v : β) :
    List (α × β) :=
  match m with
  | [] => [(k, v)]
  | (k', v') :: rest =>
    if k' == k then (k', v) :: rest else (k', v') :: dictInsert rest k v

/-- Python `defaultdict(set)` update `m[k].add(x)` with sets modelled as
insertion-ordered duplicate-free lists. -/
def multiAdd {α β : Type} [BEq α] [BEq β] (m : List (α × List β)) (k : α)
    (x : β) : List (α × List β) :=
  match m with
  | [] => [(k, [x])]
  | (k', s) :: rest =>
    if k' == k then (k', if s.contains x then s else s ++ [x]) :: rest
    else (k', s) :: multiAdd rest k x

/-- Keys of an association list, in insertion order. -/
def dictKeys {α β : Type} (m : List (α × β)) : List α := m.map Prod.fst

/-- Python `str.strip()`: drop leading and trailing whitespace.  (A
structural implementation over the character list, so that concrete
instances evaluate by kernel reduction.) -/
def pyStrip (s : String) : String :=
  String.mk (((s.data.dropWhile Char.isWhitespace).reverse.dropWhile
    Char.isWhitespace).reverse)

/-- Python `str.lower()`: lowercase every character.  (Structural, see
`pyStrip`.) -/
def pyLower (s : String) : String := String.mk (s.data.map Char.toLower)

/-- Lexicographic comparison of character lists by code point, the order
Python `sorted` uses on strings. -/
def charListLe : List Char → List Char → Bool
  | [], _ => true
  | _ :: _, [] => false
  | a :: as, b :: bs =>
    if a.val < b.val then true
    else if b.val < a.val then false
    else charListLe as bs

/-- Python string comparison `a <= b` (code-point lexicographic). -/
def strLe (a b : String) : Bool := charListLe a.data b.data

/-- Insertion into a `strLe`-sorted list (stable). -/
def insertSorted (x : String) : List String → List String
  | [] => [x]
  | y :: ys => if strLe x y then x :: y :: ys else y :: insertSorted x ys

/-- Python `sorted` on strings: insertion sort by `strLe`. -/
def sortStrings (l : List String) : List String :=
  l.foldr insertSorted []

/-- The stop-resolution fuzzy-match cutoff `0.5` (as an explicit reduced
fraction so that concrete instances evaluate by kernel reduction). -/
def half : Rat := ⟨1, 2, by decide, by decide⟩

/-- The building-resolution fuzzy-match cutoff `0.6` (see `half`). -/
def threeFifths : Rat := ⟨3, 5, by decide, by decide⟩

theorem half_eq : half = 1/2 := by
  unfold half
  rw [Rat.mk'_eq_divInt]
  norm_num [Rat.divInt_eq_div]

theorem threeFifths_eq : threeFifths = 3/5 := by
  unfold threeFifths
  rw [Rat.mk'_eq_divInt]
  norm_num [Rat.divInt_eq_div]

/-- De-duplication keeping first occurrences, as done with a `seen` set in
`_load_bus_routes` when pre-resolving building stops. -/
def dedupSeen (seen : List String) : List String → List String
  | [] => []
  | x :: xs =>
    if seen.contains x then dedupSeen seen xs
    else x :: dedupSeen (seen ++ [x]) xs

/-- Python `sorted(set(l))` for strings. -/
def sortDedup (l : List String) : List String :=
  sortStrings (dedupSeen [] l)

/-- The `_norm` helper of `DataLoader`: keep alphanumeric and whitespace
characters, lowercase them, and strip. -/
def norm (text : String) : String :=
  pyStrip (String.mk ((text.data.filter
    (fun c => c.isAlphanum || c.isWhitespace)).map Char.toLower))

/-- An apostrophe character, used in the literal planner messages. -/
def apos : String := (Char.ofNat 39).toString

/-- The stripped stop-name list of a route, as computed (identically) in
`_load_bus_routes` and in `_direct_path_between_stops`. -/
def routeStops (r : RawRoute) : List String := r.stops.map pyStrip

/-- Modelled from the spec: `difflib.get_close_matches(word, l, n=1,
cutoff)` (the Python standard library is not part of the repository).  Per
the spec it accepts a candidate only if its ratio-based edit similarity
passes the cutoff and returns the single best candidate; the similarity
itself is the abstract parameter `sim`, and ties resolve to the first
candidate (a deterministic refinement of the unspecified tie order).
`gcmGo` carries the best accepted candidate so far. -/
def gcmGo (sim : String → String → Rat) (word : String) (cutoff : Rat)
    (best : Option (String × Rat)) : List String → Option (String × Rat)
  | [] => best
  | c :: cs =>
    let r := sim word c
    if cutoff ≤ r then
      match best with
      | none => gcmGo sim word cutoff (some (c, r)) cs
      | some (b, rb) =>
        if rb < r then gcmGo sim word cutoff (some (c, r)) cs
        else gcmGo sim word cutoff (some (b, rb)) cs
    else gcmGo sim word cutoff best cs

/-- Modelled from the spec: the `n = 1` close-match query used by both
resolvers (see `gcmGo`). -/
def getCloseMatch (sim : String → String → Rat) (word : String)
    (cutoff : Rat) (l : List String) : Option String :=
  (gcmGo sim word cutoff none l).map Prod.fst

/-- `DataLoader.resolve_stop_name`, parametrised by the canonical stop
list `names` (`route_stop_names`): exact case-insensitive match first,
then fuzzy match with cutoff 0.5 mapped back through the
`{s.lower(): s}` dictionary (whose duplicate keys keep the last value,
hence the reversed search). -/
def resolveStopCore (sim : String → String → Rat) (names : List String)
    (label : String) : Option String :=
  if label = "" then none
  else
    let label_clean := pyStrip label
    match names.find? (fun s => pyLower s == pyLower label_clean) with
    | some s => some s
    | none =>
      match getCloseMatch sim (pyLower label_clean) half
          (names.map pyLower) with
      | some m => names.reverse.find? (fun s => pyLower s == m)
      | none => none

/-- The synthetic Yard building name added by `_load_buildings`. -/
def yardName : String := "The Yard @ College Avenue"

/-- The synthetic Yard building added by `_load_buildings`. -/
def yardBuilding : Building :=
  ⟨yardName, some "College Avenue", ["The Yard", "College Avenue Student Center"]⟩

/-- The literal `alias_map` of `_load_buildings`. -/
def rawAliasMap : List (String × String) :=
  [("the yard", yardName), ("yard", yardName),
   ("yard at college ave", yardName), ("yard at college avenue", yardName),
   ("yard college ave", yardName), ("yard college avenue", yardName),
   ("hill centre", "Hill Center"), ("hill cntr", "Hill Center"),
   ("hillcenter", "Hill Center"), ("hill center bus stop", "Hill Center"),
   ("busch student centre", "Busch Student Center")]

/-- The `buildings_by_name` index built by `_load_buildings` from the raw
campus → building-list data, plus the synthetic Yard entry. -/
def buildBuildingsByName (raw : List (String × List RawBuilding)) :
    List (String × Building) :=
  let base := raw.foldl (fun acc cb =>
    cb.2.foldl (fun acc b =>
      let name := pyStrip b.name
      if name = "" then acc
      else dictInsert acc (norm name) ⟨name, some cb.1, b.bus_stops⟩) acc) []
  dictInsert base (norm yardName) yardBuilding

/-- The `alias_to_building_key` table of `_load_buildings`. -/
def buildAliasMap : List (String × String) :=
  rawAliasMap.foldl (fun acc p => dictInsert acc (norm p.1) (norm p.2)) []

/-- One consecutive-pair step of the `_load_bus_routes` index build: skip
the pair when either stripped name is empty, else insert the adjacency and
the route id in both directions. -/
def geStep (rid : String)
    (acc : List (String × List String) × List ((String × String) × List String))
    (ab : String × String) :
    List (String × List String) × List ((String × String) × List String) :=
  if ab.1 = "" ∨ ab.2 = "" then acc
  else
    (multiAdd (multiAdd acc.1 ab.1 ab.2) ab.2 ab.1,
     multiAdd (multiAdd acc.2 (ab.1, ab.2) rid) (ab.2, ab.1) rid)

/-- The per-route inner loop of the index build, over the consecutive stop
pairs of one route. -/
def geRouteStep
    (acc : List (String × List String) × List ((String × String) × List String))
    (r : RawRoute) :
    List (String × List String) × List ((String × String) × List String) :=
  ((routeStops r).zip (routeStops r).tail).foldl (geStep r.route_id) acc

/-- The stop graph and the edge → route-ids index, built together by
`_load_bus_routes`: for every consecutive stop pair with both names
nonempty, the pair is inserted in both directions. -/
def buildGraphEdges (routes : List RawRoute) :
    List (String × List String) × List ((String × String) × List String) :=
  routes.foldl geRouteStep ([], [])

/-- The collection pass of `_load_bus_routes` over all routes that feeds
`route_stop_names` (nonempty stripped stop names). -/
def collectStopNames (routes : List RawRoute) : List String :=
  routes.flatMap (fun r => (routeStops r).filter (fun nm => nm ≠ ""))

/-- The `building_stop_map` pre-resolution pass of `_load_bus_routes`:
each raw stop label of a building resolved through `resolve_stop_name`,
dropped when unresolved, de-duplicated preserving order. -/
def buildBuildingStopMap (sim : String → String → Rat)
    (names : List String) (bbn : List (String × Building)) :
    List (String × List String) :=
  bbn.map (fun kb =>
    (kb.1, dedupSeen [] (kb.2.bus_stops.filterMap (resolveStopCore sim names))))

/-- The post-build state of `DataLoader` (the fields the planner reads). -/
structure Loader where
  buildings_by_name : List (String × Building)
  alias_to_building_key : List (String × String)
  routes : List RawRoute
  route_stop_names : List String
  stop_graph : List (String × List String)
  edge_to_routes : List ((String × String) × List String)
  building_stop_map : List (String × List String)
deriving Repr

/-- The whole index build of `DataLoader.__init__` (`_load_buildings`
followed by `_load_bus_routes`) from the parsed JSON data. -/
def buildLoader (sim : String → String → Rat)
    (rawBuildings : List (String × List RawBuilding))
    (rawRoutes : List RawRoute) : Loader :=
  let bbn := buildBuildingsByName rawBuildings
  let names := sortDedup (collectStopNames rawRoutes)
  let ge := buildGraphEdges rawRoutes
  { buildings_by_name := bbn
    alias_to_building_key := buildAliasMap
    routes := rawRoutes
    route_stop_names := names
    stop_graph := ge.1
    edge_to_routes := ge.2
    building_stop_map := buildBuildingStopMap sim names bbn }

/-- `DataLoader.resolve_building`: direct normalized match, then alias
table, then fuzzy match over the building keys with cutoff 0.6.  (The
Python `if alias_key` truthiness test is modelled by the lookup succeeding;
alias values are nonempty normalized names.) -/
def resolve_building (sim : String → String → Rat) (L : Loader)
    (name : String) : Option Building :=
  if name = "" then none
  else
    let key := norm name
    match dictGet? L.buildings_by_name key with
    | some b => some b
    | none =>
      match (dictGet? L.alias_to_building_key key).bind
          (fun ak => dictGet? L.buildings_by_name ak) with
      | some b => some b
      | none =>
        (getCloseMatch sim key threeFifths (dictKeys L.buildings_by_name)).bind
          (fun m => dictGet? L.buildings_by_name m)

/-- `DataLoader.resolve_stop_name` on the loader state. -/
def resolve_stop_name (sim : String → String → Rat) (L : Loader)
    (label : String) : Option String :=
  resolveStopCore sim L.route_stop_names label

/-- `DataLoader.get_building_stops`. -/
def get_building_stops (L : Loader) (b : Building) : List String :=
  dictGetD L.building_stop_map (norm b.name) []

/-! ## The routing engine (`routing_engine.py`) -/

/-- The stop graph type (`self.data.stop_graph`). -/
abbrev Graph := List (String × List String)

/-- Adjacency list of a node (`graph[u]`; on the built graph every node
reachable by BFS is a key, so the defaultdict never creates entries here). -/
def adjOf (g : Graph) (u : String) : List String := dictGetD g u []

/-- The edge relation of the stop graph. -/
def Adj (g : Graph) (u v : String) : Prop := v ∈ adjOf g u

instance (g : Graph) (u v : String) : Decidable (Adj g u v) := by
  unfold Adj; infer_instance

/-- A walk through the stop graph: the node list is nonempty, starts at
`s`, ends at `t`, and consecutive nodes are adjacent.  This is the
specification-side notion of a path used to state BFS optimality. -/
inductive Walk (g : Graph) : String → String → List String → Prop
  | single (s : String) : Walk g s s [s]
  | cons {s v t : String} {p : List String} :
      Adj g s v → Walk g v t p → Walk g s t (s :: p)

/-- The BFS predecessor map `prev` (`None` marks the start node). -/
abbrev PrevMap := List (String × Option String)

/-- The path reconstruction loop of `_shortest_path_between_stops`, before
the final `reverse`: follow predecessor pointers until the start node
(`prev[v] is None`).  The fuel bounds the chain length; under the BFS
invariant `prev.length` fuel always suffices. -/
def btRev (prev : PrevMap) : Nat → String → List String
  | 0, v => [v]
  | fuel + 1, v =>
    match List.lookup v prev with
    | some (some u) => v :: btRev prev fuel u
    | _ => [v]

/-- The reconstructed BFS path (`path.reverse()` applied to the
predecessor chain). -/
def btPath (prev : PrevMap) (v : String) : List String :=
  (btRev prev prev.length v).reverse

/-- The inner `for v in graph[u]` loop of BFS: skip already-seen
neighbours, record the predecessor, return the reconstructed path when the
goal is reached, otherwise collect the freshly enqueued nodes. -/
def processNbrs (goal u : String) :
    List String → PrevMap → List String →
    Sum (List String) (PrevMap × List String)
  | [], prev, acc => .inr (prev, acc)
  | v :: rest, prev, acc =>
    if (dictKeys prev).contains v then processNbrs goal u rest prev acc
    else
      let prev' := prev ++ [(v, some u)]
      if v = goal then .inl (btPath prev' v)
      else processNbrs goal u rest prev' (acc ++ [v])

/-- The `while q` loop of `_shortest_path_between_stops`.  The fuel is an
explicit termination bound; `bfsFuel` below always suffices, so the
fuel-exhaustion branch is unreachable from `shortest_path_between_stops`. -/
def bfsLoop (g : Graph) (goal : String) :
    Nat → List String → PrevMap → Option (List String)
  | _, [], _ => none
  | 0, _ :: _, _ => none
  | fuel + 1, u :: q', prev =>
    match processNbrs goal u (adjOf g u) prev [] with
    | .inl path => some path
    | .inr pa => bfsLoop g goal fuel (q' ++ pa.2) pa.1

/-- All strings occurring in the graph structure (keys and neighbour
lists); only used to bound the BFS work. -/
def vertsList (g : Graph) : List String :=
  g.map Prod.fst ++ g.flatMap Prod.snd

/-- A sufficient fuel bound for `bfsLoop` (twice the vertex count plus
one). -/
def bfsFuel (g : Graph) : Nat := 2 * (vertsList g).length + 1

/-- `RoutingEngine._shortest_path_between_stops`: the `start == goal`
short-circuit, the graph-membership guard, then BFS from `start` with
`prev = {start: None}`. -/
def shortest_path_between_stops (g : Graph) (start goal : String) :
    Option (List String) :=
  if start = goal then some [start]
  else if start ∉ dictKeys g ∨ goal ∉ dictKeys g then none
  else bfsLoop g goal (bfsFuel g) [start] [(start, none)]

/-- The best-candidate selection loop shared (in shape) by
`_direct_path_between_stops`, the direct-pair loop of
`plan_building_to_building`, and `_best_bfs_path`: scan the list, skipping
items without a candidate, keeping the first candidate of strictly
smallest measure. -/
def bestBy {α β : Type} (f : α → Option β) (len : β → Nat) :
    List α → Option β → Option β
  | [], best => best
  | x :: xs, best =>
    match f x with
    | none => bestBy f len xs best
    | some y =>
      match best with
      | none => bestBy f len xs (some y)
      | some b =>
        if len y < len b then bestBy f len xs (some y)
        else bestBy f len xs (some b)

/-- The stop sub-sequence a route contributes between the first
occurrences of `start` and `goal` (direction-normalized), as sliced by
`_direct_path_between_stops`. -/
def directSub (stops : List String) (start goal : String) : List String :=
  let i1 := stops.indexOf start
  let i2 := stops.indexOf goal
  if i1 ≤ i2 then (stops.drop i1).take (i2 - i1 + 1)
  else ((stops.drop i2).take (i1 - i2 + 1)).reverse

/-- The per-route candidate of `_direct_path_between_stops`: `None` when
the route does not contain both stops. -/
def directCand (start goal : String) (r : RawRoute) :
    Option (String × List String) :=
  let stops := routeStops r
  if start ∈ stops ∧ goal ∈ stops then
    some (r.route_id, directSub stops start goal)
  else none

/-- `RoutingEngine._direct_path_between_stops`: the route whose
sub-sequence between the two stops has the fewest stops. -/
def direct_path_between_stops (routes : List RawRoute)
    (start goal : String) : Option (String × List String) :=
  bestBy (directCand start goal) (fun y => y.2.length) routes none

/-- The origin × destination stop cross-product, in the nested loop order
of the Python code. -/
def pairList (origin_stops dest_stops : List String) :
    List (String × String) :=
  origin_stops.flatMap (fun s => dest_stops.map (fun t => (s, t)))

/-- The direct-candidate loop of `plan_building_to_building` (step 1):
best direct candidate over all stop pairs. -/
def bestDirect (routes : List RawRoute)
    (origin_stops dest_stops : List String) :
    Option (String × String × String × List String) :=
  bestBy (fun st => (direct_path_between_stops routes st.1 st.2).map
      (fun rp => (st.1, st.2, rp.1, rp.2)))
    (fun y => y.2.2.2.length) (pairList origin_stops dest_stops) none

/-- `RoutingEngine._best_bfs_path`: the shortest BFS path over all stop
pairs. -/
def best_bfs_path (g : Graph) (origin_stops dest_stops : List String) :
    Option (String × String × List String) :=
  bestBy (fun st => (shortest_path_between_stops g st.1 st.2).map
      (fun p => (st.1, st.2, p)))
    (fun y => y.2.2.length) (pairList origin_stops dest_stops) none

/-- The route-set of an edge (`edge_routes.get((a, b), set())`). -/
def edgeRoutesOf (er : List ((String × String) × List String))
    (e : String × String) : List String :=
  dictGetD er e []

/-- The inner `while j < len(edges)` scan of `_build_legs`: extend the
current leg while the chosen route keeps covering the next edge, adopting
a route as soon as one appears if none is chosen yet.  Returns the final
route of the leg and how many further edges it consumed. -/
def legSpan (er : List ((String × String) × List String))
    (route : Option String) :
    List (String × String) → Option String × Nat
  | [] => (route, 0)
  | e :: rest =>
    let routes_j := edgeRoutesOf er e
    match route with
    | some r =>
      if r ∈ routes_j then
        let rn := legSpan er (some r) rest
        (rn.1, rn.2 + 1)
      else (some r, 0)
    | none =>
      let route' := if routes_j ≠ [] then some routes_j.head! else none
      let rn := legSpan er route' rest
      (rn.1, rn.2 + 1)

/-- `RoutingEngine._build_legs`: compress a stop path into legs.  Each
iteration of the outer `while i < len(edges)` loop takes the first edge,
initialises the leg route from that edge (arbitrary-covering modelled as
the first stored route), scans forward with `legSpan`, and emits the leg. -/
def build_legs (er : List ((String × String) × List String)) :
    List String → List Leg
  | [] => []
  | [_] => []
  | a :: b :: rest =>
    let p := a :: b :: rest
    let possible := edgeRoutesOf er (a, b)
    let route0 := if possible ≠ [] then some possible.head! else none
    let rn := legSpan er route0 ((b :: rest).zip rest)
    let seg := p.take (rn.2 + 2)
    ⟨rn.1, seg.headD "", seg.getLastD "", seg⟩ :: build_legs er (p.drop (rn.2 + 1))
termination_by p => p.length
decreasing_by
  simp [List.length_drop]
  omega

/-- The error message of the building-or-stop resolution failure. -/
def msgNotFound (name : String) : String :=
  s!"I couldn{apos}t find a building or bus stop named **{name}**."

/-- The error message for a place with no known stops. -/
def msgNoStops (name : String) : String :=
  s!"I don{apos}t know any bus stops near **{name}**."

/-- The error message of the exhausted BFS fallback. -/
def msgNoPath (o d : String) : String :=
  s!"I couldn{apos}t find any bus path between **{o}** and **{d}** using the JSON routes."

/-- `RoutingEngine._resolve_place`: a real building with its pre-resolved
stops, else a pseudo-building for a bare stop name, else nothing. -/
def resolve_place (sim : String → String → Rat) (L : Loader)
    (name : String) : Option (Building × List String) :=
  if name = "" then none
  else
    match resolve_building sim L name with
    | some b => some (b, get_building_stops L b)
    | none =>
      match resolve_stop_name sim L name with
      | some stop => some (⟨stop, none, [stop]⟩, [stop])
      | none => none

/-- `RoutingEngine.plan_building_to_building`: resolve both places, try
the direct single-route search over all stop pairs, then fall back to BFS
plus leg compression. -/
def plan_building_to_building (sim : String → String → Rat) (L : Loader)
    (origin_name dest_name : String) : PlanResult :=
  match resolve_place sim L origin_name with
  | none => .planError (msgNotFound origin_name)
  | some (origin_place, origin_stops) =>
    match resolve_place sim L dest_name with
    | none => .planError (msgNotFound dest_name)
    | some (dest_place, dest_stops) =>
      if origin_stops = [] then .planError (msgNoStops origin_place.name)
      else if dest_stops = [] then .planError (msgNoStops dest_place.name)
      else
        match bestDirect L.routes origin_stops dest_stops with
        | some (s, t, rid, stop_path) =>
          .busRoute origin_place dest_place s t stop_path
            [⟨some rid, stop_path.headD "", stop_path.getLastD "", stop_path⟩]
        | none =>
          match best_bfs_path L.stop_graph origin_stops dest_stops with
          | none =>
            .planError (msgNoPath origin_place.name dest_place.name)
          | some (s, t, stop_path) =>
            .busRoute origin_place dest_place s t stop_path
              (build_legs L.edge_to_routes stop_path)

/-! ## Generic lemmas about the selection fold `bestBy` -/

theorem bestBy_cons_none {α β : Type} (f : α → Option β) (len : β → Nat)
    (x : α) (xs : List α) (init : Option β) (h : f x = none) :
    bestBy f len (x :: xs) init = bestBy f len xs init := by
  simp [bestBy, h]

theorem bestBy_cons_some_none {α β : Type} (f : α → Option β)
    (len : β → Nat) (x : α) (xs : List α) (z : β) (h : f x = some z) :
    bestBy f len (x :: xs) none = bestBy f len xs (some z) := by
  simp [bestBy, h]

theorem bestBy_cons_some_some {α β : Type} (f : α → Option β)
    (len : β → Nat) (x : α) (xs : List α) (z b : β) (h : f x = some z) :
    bestBy f len (x :: xs) (some b) =
      if len z < len b then bestBy f len xs (some z)
      else bestBy f len xs (some b) := by
  simp [bestBy, h]

theorem bestBy_mem {α β : Type} (f : α → Option β) (len : β → Nat) :
    ∀ (l : List α) (init : Option β) (y : β),
      bestBy f len l init = some y →
      init = some y ∨ ∃ x ∈ l, f x = some y := by
  intro l
  induction l with
  | nil => intro init y h; exact Or.inl h
  | cons x xs ih =>
    intro init y h
    cases hfx : f x with
    | none =>
      rw [bestBy_cons_none f len x xs init hfx] at h
      rcases ih init y h with h' | ⟨x', hx', hfx'⟩
      · exact Or.inl h'
      · exact Or.inr ⟨x', List.mem_cons_of_mem _ hx', hfx'⟩
    | some z =>
      cases init with
      | none =>
        rw [bestBy_cons_some_none f len x xs z hfx] at h
        rcases ih (some z) y h with h' | ⟨x', hx', hfx'⟩
        · exact Or.inr ⟨x, List.mem_cons_self x xs, by rw [hfx, h']⟩
        · exact Or.inr ⟨x', List.mem_cons_of_mem _ hx', hfx'⟩
      | some b =>
        rw [bestBy_cons_some_some f len x xs z b hfx] at h
        by_cases hlt : len z < len b
        · rw [if_pos hlt] at h
          rcases ih (some z) y h with h' | ⟨x', hx', hfx'⟩
          · exact Or.inr ⟨x, List.mem_cons_self x xs, by rw [hfx, h']⟩
          · exact Or.inr ⟨x', List.mem_cons_of_mem _ hx', hfx'⟩
        · rw [if_neg hlt] at h
          rcases ih (some b) y h with h' | ⟨x', hx', hfx'⟩
          · exact Or.inl h'
          · exact Or.inr ⟨x', List.mem_cons_of_mem _ hx', hfx'⟩

theorem bestBy_min {α β : Type} (f : α → Option β) (len : β → Nat) :
    ∀ (l : List α) (init : Option β) (y : β),
      bestBy f len l init = some y →
      (∀ b, init = some b → len y ≤ len b) ∧
      (∀ x ∈ l, ∀ z, f x = some z → len y ≤ len z) := by
  intro l
  induction l with
  | nil =>
    intro init y h
    refine ⟨fun b hb => ?_, fun x hx => absurd hx (List.not_mem_nil x)⟩
    simp only [bestBy] at h
    rw [hb] at h
    cases h
    exact le_refl _
  | cons x xs ih =>
    intro init y h
    cases hfx : f x with
    | none =>
      rw [bestBy_cons_none f len x xs init hfx] at h
      obtain ⟨h1, h2⟩ := ih init y h
      refine ⟨h1, fun x' hx' z hz => ?_⟩
      rcases List.mem_cons.mp hx' with rfl | hmem
      · rw [hfx] at hz; cases hz
      · exact h2 x' hmem z hz
    | some z =>
      cases init with
      | none =>
        rw [bestBy_cons_some_none f len x xs z hfx] at h
        obtain ⟨h1, h2⟩ := ih (some z) y h
        refine ⟨fun b hb => (by cases hb), fun x' hx' z' hz' => ?_⟩
        rcases List.mem_cons.mp hx' with rfl | hmem
        · rw [hfx] at hz'; cases hz'; exact h1 z rfl
        · exact h2 x' hmem z' hz'
      | some b =>
        rw [bestBy_cons_some_some f len x xs z b hfx] at h
        by_cases hlt : len z < len b
        · rw [if_pos hlt] at h
          obtain ⟨h1, h2⟩ := ih (some z) y h
          refine ⟨fun b' hb' => ?_, fun x' hx' z' hz' => ?_⟩
          · cases hb'; exact le_trans (h1 z rfl) (le_of_lt hlt)
          · rcases List.mem_cons.mp hx' with rfl | hmem
            · rw [hfx] at hz'; cases hz'; exact h1 z rfl
            · exact h2 x' hmem z' hz'
        · rw [if_neg hlt] at h
          obtain ⟨h1, h2⟩ := ih (some b) y h
          refine ⟨fun b' hb' => ?_, fun x' hx' z' hz' => ?_⟩
          · cases hb'; exact h1 b rfl
          · rcases List.mem_cons.mp hx' with rfl | hmem
            · rw [hfx] at hz'; cases hz'
              exact le_trans (h1 b rfl) (le_of_not_lt hlt)
            · exact h2 x' hmem z' hz'

theorem bestBy_eq_none {α β : Type} (f : α → Option β) (len : β → Nat) :
    ∀ (l : List α) (init : Option β),
      bestBy f len l init = none ↔ init = none ∧ ∀ x ∈ l, f x = none := by
  intro l
  induction l with
  | nil => intro init; simp [bestBy]
  | cons x xs ih =>
    intro init
    cases hfx : f x with
    | none =>
      rw [bestBy_cons_none f len x xs init hfx, ih init]
      constructor
      · rintro ⟨h1, h2⟩
        exact ⟨h1, fun x' hx' => by
          rcases List.mem_cons.mp hx' with rfl | hmem
          · exact hfx
          · exact h2 x' hmem⟩
      · rintro ⟨h1, h2⟩
        exact ⟨h1, fun x' hx' => h2 x' (List.mem_cons_of_mem _ hx')⟩
    | some z =>
      cases init with
      | none =>
        rw [bestBy_cons_some_none f len x xs z hfx, ih (some z)]
        constructor
        · rintro ⟨h1, -⟩; cases h1
        · rintro ⟨-, h2⟩
          have := h2 x (List.mem_cons_self x xs)
          rw [hfx] at this; cases this
      | some b =>
        rw [bestBy_cons_some_some f len x xs z b hfx]
        by_cases hlt : len z < len b
        · rw [if_pos hlt, ih (some z)]
          constructor
          · rintro ⟨h1, -⟩; cases h1
          · rintro ⟨h1, -⟩; cases h1
        · rw [if_neg hlt, ih (some b)]
          constructor
          · rintro ⟨h1, -⟩; cases h1
          · rintro ⟨h1, -⟩; cases h1

/-! ## Association-list (Python dict) lemmas -/

theorem dictGet?_eq_some_of_mem {α β : Type} [BEq α] [LawfulBEq α]
    (m : List (α × β)) (k : α) (h : k ∈ dictKeys m) :
    ∃ v, dictGet? m k = some v ∧ (k, v) ∈ m := by
  induction m with
  | nil => simp [dictKeys] at h
  | cons p rest ih =>
    by_cases hk : p.1 = k
    · refine ⟨p.2, ?_, ?_⟩
      · simp [dictGet?, List.find?, hk]
      · rw [← hk]; exact List.mem_cons_self _ _
    · have hmem : k ∈ dictKeys rest := by
        simp [dictKeys] at h ⊢
        rcases h with h | h
        · exact absurd h.symm hk
        · exact h
      obtain ⟨v, hv, hvm⟩ := ih hmem
      refine ⟨v, ?_, List.mem_cons_of_mem _ hvm⟩
      simp only [dictGet?, List.find?] at hv ⊢
      have : (p.1 == k) = false := by simp [hk]
      rw [this]
      exact hv

theorem dictGet?_mem {α β : Type} [BEq α] [LawfulBEq α]
    (m : List (α × β)) (k : α) (v : β) (h : dictGet? m k = some v) :
    (k, v) ∈ m ∧ k ∈ dictKeys m := by
  induction m with
  | nil => simp [dictGet?] at h
  | cons p rest ih =>
    simp only [dictGet?, List.find?] at h
    by_cases hk : p.1 = k
    · have hb : (p.1 == k) = true := by simp [hk]
      rw [hb] at h
      simp only [Option.map_some] at h
      cases h
      constructor
      · have : p = (k, p.2) := by
          cases p; simp at hk ⊢; exact hk
        rw [← this]; exact List.mem_cons_self _ _
      · simp [dictKeys, hk]
    · have hb : (p.1 == k) = false := by simp [hk]
      rw [hb] at h
      obtain ⟨h1, h2⟩ := ih h
      exact ⟨List.mem_cons_of_mem _ h1, by simp [dictKeys] at h2 ⊢; exact Or.inr h2⟩

theorem dictGet?_eq_none {α β : Type} [BEq α] [LawfulBEq α]
    (m : List (α × β)) (k : α) (h : k ∉ dictKeys m) :
    dictGet? m k = none := by
  induction m with
  | nil => simp [dictGet?]
  | cons p rest ih =>
    simp only [dictKeys, List.map_cons, List.mem_cons] at h
    push_neg at h
    simp only [dictGet?, List.find?]
    have : (p.1 == k) = false := by simp; exact fun hc => h.1 hc.symm
    rw [this]
    exact ih h.2

theorem multiAdd_getD_same {α β : Type} [BEq α] [LawfulBEq α] [BEq β]
    (m : List (α × List β)) (k : α) (x : β) :
    dictGetD (multiAdd m k x) k [] =
      (if (dictGetD m k []).contains x then dictGetD m k []
       else dictGetD m k [] ++ [x]) := by
  induction m with
  | nil => simp [multiAdd, dictGetD, dictGet?]
  | cons p rest ih =>
    by_cases hk : p.1 = k
    · simp [multiAdd, dictGetD, dictGet?, List.find?, hk]
    · have hb : (p.1 == k) = false := by simp [hk]
      simp only [multiAdd, hb, Bool.false_eq_true, if_false]
      simpa [dictGetD, dictGet?, List.find?, hb] using ih

theorem multiAdd_getD_ne {α β : Type} [BEq α] [LawfulBEq α] [BEq β]
    (m : List (α × List β)) (k k' : α) (x : β) (h : k' ≠ k) :
    dictGetD (multiAdd m k x) k' [] = dictGetD m k' [] := by
  have hkk : (k == k') = false := by simp; exact fun hc => h hc.symm
  induction m with
  | nil => simp [multiAdd, dictGetD, dictGet?, List.find?, hkk]
  | cons p rest ih =>
    obtain ⟨pk, pv⟩ := p
    by_cases hk : pk = k
    · subst hk
      simp [multiAdd, dictGetD, dictGet?, List.find?, hkk]
    · have hb : (pk == k) = false := by simp [hk]
      by_cases hk' : pk = k'
      · subst hk'
        simp [multiAdd, hb, dictGetD, dictGet?, List.find?]
      · have hb' : (pk == k') = false := by simp [hk']
        simp only [multiAdd, hb, Bool.false_eq_true, if_false]
        simpa [dictGetD, dictGet?, List.find?, hb'] using ih

theorem mem_keys_multiAdd_self {α β : Type} [BEq α] [LawfulBEq α] [BEq β]
    (m : List (α × List β)) (k : α) (x : β) :
    k ∈ dictKeys (multiAdd m k x) := by
  induction m with
  | nil => simp [multiAdd, dictKeys]
  | cons p rest ih =>
    by_cases hk : p.1 = k
    · simp [multiAdd, dictKeys, hk]
    · have hb : (p.1 == k) = false := by simp [hk]
      simp only [multiAdd, hb, Bool.false_eq_true, if_false]
      simp [dictKeys] at ih ⊢
      exact Or.inr ih

theorem mem_keys_of_multiAdd {α β : Type} [BEq α] [LawfulBEq α] [BEq β]
    (m : List (α × List β)) (k : α) (x : β) (u : α)
    (h : u ∈ dictKeys (multiAdd m k x)) : u ∈ dictKeys m ∨ u = k := by
  induction m with
  | nil => simp [multiAdd, dictKeys] at h; exact Or.inr h
  | cons p rest ih =>
    by_cases hk : p.1 = k
    · simp [multiAdd, dictKeys, hk] at h
      rcases h with h | h
      · exact Or.inr h
      · exact Or.inl (by simp [dictKeys]; exact Or.inr h)
    · have hb : (p.1 == k) = false := by simp [hk]
      simp only [multiAdd, hb, Bool.false_eq_true, if_false] at h
      simp [dictKeys] at h ⊢
      rcases h with h | h
      · exact Or.inl (Or.inl h)
      · rcases ih (by simpa [dictKeys] using h) with h' | h'
        · exact Or.inl (Or.inr (by simpa [dictKeys] using h'))
        · exact Or.inr h'

theorem keys_sub_multiAdd {α β : Type} [BEq α] [LawfulBEq α] [BEq β]
    (m : List (α × List β)) (k : α) (x : β) (u : α)
    (h : u ∈ dictKeys m) : u ∈ dictKeys (multiAdd m k x) := by
  induction m with
  | nil => simp [dictKeys] at h
  | cons p rest ih =>
    by_cases hk : p.1 = k
    · simpa [multiAdd, dictKeys, hk] using (by simpa [dictKeys, hk] using h)
    · have hb : (p.1 == k) = false := by simp [hk]
      simp only [multiAdd, hb, Bool.false_eq_true, if_false]
      simp [dictKeys] at h ⊢
      rcases h with h | h
      · exact Or.inl h
      · exact Or.inr (by simpa [dictKeys] using ih (by simpa [dictKeys] using h))

theorem mem_getD_multiAdd {α β : Type} [BEq α] [LawfulBEq α] [BEq β]
    (m : List (α × List β)) (k k' : α) (x v : β)
    (h : v ∈ dictGetD (multiAdd m k x) k' []) :
    v ∈ dictGetD m k' [] ∨ v = x := by
  by_cases hk : k' = k
  · subst hk
    rw [multiAdd_getD_same] at h
    by_cases hc : (dictGetD m k' []).contains x
    · rw [if_pos hc] at h; exact Or.inl h
    · rw [if_neg hc] at h
      rcases List.mem_append.mp h with h' | h'
      · exact Or.inl h'
      · exact Or.inr (List.mem_singleton.mp h')
  · rw [multiAdd_getD_ne m k k' x hk] at h
    exact Or.inl h

theorem mem_keys_of_mem_getD {α β : Type} [BEq α] [LawfulBEq α]
    (m : List (α × List β)) (k : α) (v : β)
    (h : v ∈ dictGetD m k []) : k ∈ dictKeys m := by
  by_contra hk
  rw [dictGetD, dictGet?_eq_none m k hk] at h
  simp at h

/-! ## Invariants of the index build (`_load_bus_routes`) -/

/-- The invariant carried through the `_load_bus_routes` build fold:
edge-route symmetry, provenance of the graph nodes from the given route
list, and closure of the adjacency structure (every stored neighbour is a
key). -/
def GEInv (routes : List RawRoute)
    (acc : List (String × List String) × List ((String × String) × List String)) :
    Prop :=
  (∀ a b, dictGetD acc.2 (a, b) [] = dictGetD acc.2 (b, a) []) ∧
  (∀ u, u ∈ dictKeys acc.1 → ∃ r ∈ routes, u ∈ routeStops r ∧ u ≠ "") ∧
  (∀ u v, v ∈ adjOf acc.1 u → v ∈ dictKeys acc.1 ∧ u ∈ dictKeys acc.1)

theorem pair_eq_iff {a b p q : String} : (a, b) = (p, q) ↔ a = p ∧ b = q := by
  constructor
  · intro h; exact ⟨congrArg Prod.fst h, congrArg Prod.snd h⟩
  · rintro ⟨rfl, rfl⟩; rfl

theorem symStep (e : List ((String × String) × List String))
    (hsym : ∀ a b, dictGetD e (a, b) [] = dictGetD e (b, a) [])
    (p q rid : String) : ∀ a b,
      dictGetD (multiAdd (multiAdd e (p, q) rid) (q, p) rid) (a, b) [] =
      dictGetD (multiAdd (multiAdd e (p, q) rid) (q, p) rid) (b, a) [] := by
  intro a b
  by_cases hab : a = b
  · rw [hab]
  by_cases hpq : p = q
  · subst hpq
    have h1 : (a, b) ≠ (p, p) := fun hc => hab
      ((pair_eq_iff.mp hc).1.trans (pair_eq_iff.mp hc).2.symm)
    have h2 : (b, a) ≠ (p, p) := fun hc => hab
      ((pair_eq_iff.mp hc).2.trans (pair_eq_iff.mp hc).1.symm)
    rw [multiAdd_getD_ne _ _ _ _ h1, multiAdd_getD_ne _ _ _ _ h1,
        multiAdd_getD_ne _ _ _ _ h2, multiAdd_getD_ne _ _ _ _ h2]
    exact hsym a b
  by_cases h1 : (a, b) = (p, q)
  · obtain ⟨rfl, rfl⟩ := pair_eq_iff.mp h1
    have hne1 : (a, b) ≠ (b, a) := fun hc => hab (pair_eq_iff.mp hc).1
    have hne2 : (b, a) ≠ (a, b) := fun hc => hab (pair_eq_iff.mp hc).2
    have hL : dictGetD (multiAdd (multiAdd e (a, b) rid) (b, a) rid) (a, b) [] =
        (if (dictGetD e (a, b) []).contains rid then dictGetD e (a, b) []
         else dictGetD e (a, b) [] ++ [rid]) := by
      rw [multiAdd_getD_ne _ _ _ _ hne1, multiAdd_getD_same]
    have hR : dictGetD (multiAdd (multiAdd e (a, b) rid) (b, a) rid) (b, a) [] =
        (if (dictGetD e (b, a) []).contains rid then dictGetD e (b, a) []
         else dictGetD e (b, a) [] ++ [rid]) := by
      rw [multiAdd_getD_same, multiAdd_getD_ne _ _ _ _ hne2]
    rw [hL, hR, hsym a b]
  by_cases h2 : (a, b) = (q, p)
  · obtain ⟨rfl, rfl⟩ := pair_eq_iff.mp h2
    have hne1 : (b, a) ≠ (a, b) := fun hc => hab (pair_eq_iff.mp hc).2
    have hne2 : (a, b) ≠ (b, a) := fun hc => hab (pair_eq_iff.mp hc).1
    have hL : dictGetD (multiAdd (multiAdd e (b, a) rid) (a, b) rid) (a, b) [] =
        (if (dictGetD e (a, b) []).contains rid then dictGetD e (a, b) []
         else dictGetD e (a, b) [] ++ [rid]) := by
      rw [multiAdd_getD_same, multiAdd_getD_ne _ _ _ _ hne2]
    have hR : dictGetD (multiAdd (multiAdd e (b, a) rid) (a, b) rid) (b, a) [] =
        (if (dictGetD e (b, a) []).contains rid then dictGetD e (b, a) []
         else dictGetD e (b, a) [] ++ [rid]) := by
      rw [multiAdd_getD_ne _ _ _ _ hne1, multiAdd_getD_same]
    rw [hL, hR, hsym a b]
  · have h3 : (b, a) ≠ (q, p) := fun hc => h1 (by
      obtain ⟨rfl, rfl⟩ := pair_eq_iff.mp hc; rfl)
    have h4 : (b, a) ≠ (p, q) := fun hc => h2 (by
      obtain ⟨rfl, rfl⟩ := pair_eq_iff.mp hc; rfl)
    rw [multiAdd_getD_ne _ _ _ _ h2, multiAdd_getD_ne _ _ _ _ h1,
        multiAdd_getD_ne _ _ _ _ h3, multiAdd_getD_ne _ _ _ _ h4]
    exact hsym a b

theorem geStep_inv (routes : List RawRoute) (r : RawRoute)
    (hr : r ∈ routes) (ab : String × String)
    (h1 : ab.1 ∈ routeStops r) (h2 : ab.2 ∈ routeStops r)
    (acc : List (String × List String) × List ((String × String) × List String))
    (hinv : GEInv routes acc) : GEInv routes (geStep r.route_id acc ab) := by
  obtain ⟨hsym, hprov, hclosed⟩ := hinv
  unfold geStep
  by_cases hemp : ab.1 = "" ∨ ab.2 = ""
  · rw [if_pos hemp]; exact ⟨hsym, hprov, hclosed⟩
  · push_neg at hemp
    rw [if_neg (by simp [hemp.1, hemp.2])]
    refine ⟨symStep acc.2 hsym ab.1 ab.2 r.route_id, ?_, ?_⟩
    · intro u hu
      rcases mem_keys_of_multiAdd _ _ _ _ hu with hu' | hu'
      · rcases mem_keys_of_multiAdd _ _ _ _ hu' with hu'' | hu''
        · exact hprov u hu''
        · exact ⟨r, hr, by rw [hu'']; exact ⟨h1, hemp.1⟩⟩
      · exact ⟨r, hr, by rw [hu']; exact ⟨h2, hemp.2⟩⟩
    · intro u v hv
      have hukey : u ∈ dictKeys (multiAdd (multiAdd acc.1 ab.1 ab.2) ab.2 ab.1) :=
        mem_keys_of_mem_getD _ _ _ hv
      refine ⟨?_, hukey⟩
      rcases mem_getD_multiAdd _ _ _ _ _ hv with hv' | hv'
      · rcases mem_getD_multiAdd _ _ _ _ _ hv' with hv'' | hv''
        · exact keys_sub_multiAdd _ _ _ _
            (keys_sub_multiAdd _ _ _ _ (hclosed u v hv'').1)
        · rw [hv'']
          exact mem_keys_multiAdd_self _ _ _
      · rw [hv']
        exact keys_sub_multiAdd _ _ _ _ (mem_keys_multiAdd_self _ _ _)

theorem geSteps_inv (routes : List RawRoute) (r : RawRoute)
    (hr : r ∈ routes) :
    ∀ (pairs : List (String × String)),
      (∀ ab ∈ pairs, ab.1 ∈ routeStops r ∧ ab.2 ∈ routeStops r) →
      ∀ acc, GEInv routes acc →
        GEInv routes (pairs.foldl (geStep r.route_id) acc) := by
  intro pairs
  induction pairs with
  | nil => intro _ acc hinv; simpa using hinv
  | cons ab abs ih =>
    intro hmem acc hinv
    simp only [List.foldl_cons]
    have hab := hmem ab (List.mem_cons_self _ _)
    exact ih (fun x hx => hmem x (List.mem_cons_of_mem _ hx)) _
      (geStep_inv routes r hr ab hab.1 hab.2 acc hinv)

theorem geRouteStep_inv (routes : List RawRoute) (r : RawRoute)
    (hr : r ∈ routes)
    (acc : List (String × List String) × List ((String × String) × List String))
    (hinv : GEInv routes acc) : GEInv routes (geRouteStep acc r) := by
  unfold geRouteStep
  refine geSteps_inv routes r hr _ ?_ acc hinv
  intro ab hab
  have := List.of_mem_zip hab
  exact ⟨this.1, List.mem_of_mem_tail this.2⟩

theorem buildGraphEdges_inv (routes : List RawRoute) :
    GEInv routes (buildGraphEdges routes) := by
  unfold buildGraphEdges
  have base : GEInv routes ([], []) := by
    refine ⟨fun a b => rfl, ?_, ?_⟩
    · intro u hu; simp [dictKeys] at hu
    · intro u v hv; simp [adjOf, dictGetD, dictGet?] at hv
  have main : ∀ (rs : List RawRoute) acc, (∀ r ∈ rs, r ∈ routes) →
      GEInv routes acc → GEInv routes (rs.foldl geRouteStep acc) := by
    intro rs
    induction rs with
    | nil => intro acc _ hinv; simpa using hinv
    | cons r rs ih =>
      intro acc hsub hinv
      simp only [List.foldl_cons]
      exact ih _ (fun x hx => hsub x (List.mem_cons_of_mem _ hx))
        (geRouteStep_inv routes r (hsub r (List.mem_cons_self _ _)) acc hinv)
  exact main routes ([], []) (fun r hr => hr) base

/-! ## Walks in the stop graph -/

theorem Walk.length_pos {g : Graph} {s t : String} {p : List String}
    (h : Walk g s t p) : 1 ≤ p.length := by
  cases h with
  | single => simp
  | cons _ _ => simp

theorem Walk.head_eq {g : Graph} {s t : String} {p : List String}
    (h : Walk g s t p) : p.head? = some s := by
  cases h with
  | single => rfl
  | cons _ _ => rfl

theorem Walk.last_eq {g : Graph} {s t : String} {p : List String}
    (h : Walk g s t p) : p.getLast? = some t := by
  induction h with
  | single s => rfl
  | @cons s v t p hadj hw ih =>
    cases p with
    | nil => exact absurd hw.length_pos (by simp)
    | cons b l => rw [List.getLast?_cons_cons]; exact ih

theorem Walk.append_edge {g : Graph} {s u v : String} {p : List String}
    (h : Walk g s u p) (hadj : Adj g u v) : Walk g s v (p ++ [v]) := by
  induction h with
  | single s => exact Walk.cons hadj (Walk.single v)
  | cons hadj' hw ih => exact Walk.cons hadj' (ih hadj)

/-- The cut lemma: a walk from inside a node set `K` to outside it
contains an edge leaving `K`, with a strictly shorter walk to the edge
tail. -/
theorem walk_cut {g : Graph} {s v : String} {w : List String}
    (hw : Walk g s v w) (K : List String) (hs : s ∈ K) (hv : v ∉ K) :
    ∃ x y w₁, Walk g s x w₁ ∧ x ∈ K ∧ y ∉ K ∧ Adj g x y ∧
      w₁.length < w.length := by
  induction hw with
  | single s => exact absurd hs hv
  | @cons s v' t p hadj hw ih =>
    by_cases hv' : v' ∈ K
    · obtain ⟨x, y, w₁, hw₁, hx, hy, hxy, hlen⟩ := ih hv' hv
      exact ⟨x, y, s :: w₁, Walk.cons hadj hw₁, hx, hy, hxy, by
        simpa using Nat.succ_lt_succ hlen⟩
    · refine ⟨s, v', [s], Walk.single s, hs, hv', hadj, ?_⟩
      have h1 := hw.length_pos
      have h2 : ([s] : List String).length = 1 := rfl
      simp only [h2, List.length_cons]
      omega

/-- A walk cannot leave an adjacency-closed set. -/
theorem no_walk_of_closed {g : Graph} {s t : String} (K : List String)
    (hcl : ∀ u ∈ K, ∀ v, Adj g u v → v ∈ K) (hs : s ∈ K) (ht : t ∉ K) :
    ∀ w, ¬ Walk g s t w := by
  intro w hw
  obtain ⟨x, y, -, -, hx, hy, hxy, -⟩ := walk_cut hw K hs ht
  exact hy (hcl x hx y hxy)

/-! ## Lookup and key-splitting lemmas for the predecessor map -/

theorem dictKeys_append {α β : Type} (l₁ l₂ : List (α × β)) :
    dictKeys (l₁ ++ l₂) = dictKeys l₁ ++ dictKeys l₂ := by
  simp [dictKeys]

theorem lookup_append_left {α β : Type} [BEq α] [LawfulBEq α]
    (l₁ l₂ : List (α × β)) (a : α) (h : a ∈ dictKeys l₁) :
    List.lookup a (l₁ ++ l₂) = List.lookup a l₁ := by
  induction l₁ with
  | nil => simp [dictKeys] at h
  | cons p rest ih =>
    by_cases hp : a = p.1
    · simp [List.lookup, hp]
    · have hb : (a == p.1) = false := by simp [hp]
      simp only [List.cons_append, List.lookup, hb]
      refine ih ?_
      simp [dictKeys] at h
      rcases h with h | h
      · exact absurd h hp
      · simpa [dictKeys] using h

theorem lookup_append_right {α β : Type} [BEq α] [LawfulBEq α]
    (l₁ l₂ : List (α × β)) (a : α) (h : a ∉ dictKeys l₁) :
    List.lookup a (l₁ ++ l₂) = List.lookup a l₂ := by
  induction l₁ with
  | nil => simp
  | cons p rest ih =>
    simp only [dictKeys, List.map_cons, List.mem_cons] at h
    push_neg at h
    have hb : (a == p.1) = false := by simp; exact h.1
    simp only [List.cons_append, List.lookup, hb]
    exact ih (by simpa [dictKeys] using h.2)

theorem lookup_split {α β : Type} [BEq α] [LawfulBEq α]
    (pre post : List (α × β)) (v : α) (pv : β)
    (hnd : (dictKeys (pre ++ (v, pv) :: post)).Nodup) :
    List.lookup v (pre ++ (v, pv) :: post) = some pv := by
  have hv : v ∉ dictKeys pre := by
    rw [dictKeys_append] at hnd
    have := List.disjoint_of_nodup_append hnd
    intro hmem
    exact this hmem (by simp [dictKeys])
  rw [lookup_append_right pre _ v hv]
  simp [List.lookup]

theorem mem_keys_split {α β : Type} (l : List (α × β)) (v : α)
    (h : v ∈ dictKeys l) : ∃ pre pv post, l = pre ++ (v, pv) :: post := by
  induction l with
  | nil => simp [dictKeys] at h
  | cons p rest ih =>
    obtain ⟨pk, pv⟩ := p
    simp only [dictKeys, List.map_cons, List.mem_cons] at h
    by_cases hp : pk = v
    · subst hp
      exact ⟨[], pv, rest, rfl⟩
    · rcases h with h | h
      · exact absurd h.symm hp
      · obtain ⟨pre, pv', post, hsplit⟩ := ih (by simpa [dictKeys] using h)
        exact ⟨(pk, pv) :: pre, pv', post, by rw [hsplit]; rfl⟩

/-! ## Well-formedness of the BFS predecessor map -/

/-- Invariant of the `prev` dictionary built by BFS: it starts with the
start entry `(s, None)`, its keys are distinct, and every later entry
records a parent that occurs strictly earlier and is adjacent to it. -/
structure PrevInv (g : Graph) (s : String) (prev : PrevMap) : Prop where
  head : ∃ rest, prev = (s, none) :: rest
  nodup : (dictKeys prev).Nodup
  parent : ∀ pre v pu post, prev = pre ++ (v, pu) :: post → pre ≠ [] →
    ∃ u, pu = some u ∧ u ∈ dictKeys pre ∧ Adj g u v

theorem btRev_spec {g : Graph} {s : String} {prev : PrevMap}
    (hinv : PrevInv g s prev) :
    ∀ n pre v pu post, prev = pre ++ (v, pu) :: post → pre.length = n →
    ∀ fuel, n ≤ fuel →
      Walk g s v ((btRev prev fuel v).reverse) ∧
      btRev prev fuel v = btRev prev n v := by
  intro n
  induction n using Nat.strong_induction_on with
  | _ n ih =>
    intro pre v pu post hsplit hlen fuel hfuel
    have hlook : List.lookup v prev = some pu := by
      rw [hsplit]
      exact lookup_split pre post v pu (hsplit ▸ hinv.nodup)
    by_cases hpre : pre = []
    · subst hpre
      obtain ⟨rest, hr⟩ := hinv.head
      rw [List.nil_append] at hsplit
      have hvs : v = s ∧ pu = none := by
        rw [hr] at hsplit
        have h1 := List.head_eq_of_cons_eq hsplit.symm
        exact ⟨congrArg Prod.fst h1, congrArg Prod.snd h1⟩
      obtain ⟨rfl, rfl⟩ := hvs
      have hall : ∀ f, btRev prev f v = [v] := by
        intro f
        cases f with
        | zero => rfl
        | succ f => simp [btRev, hlook]
      rw [hall fuel, hall n]
      exact ⟨Walk.single v, rfl⟩
    · obtain ⟨u, rfl, hu, hadj⟩ := hinv.parent pre v pu post hsplit hpre
      obtain ⟨pre', pu', post', hpre_split⟩ := mem_keys_split pre u hu
      have hsplit' : prev = pre' ++ (u, pu') :: (post' ++ (v, some u) :: post) := by
        rw [hsplit, hpre_split]
        simp
      have hn' : pre'.length < n := by
        rw [← hlen, hpre_split]
        simp only [List.length_append, List.length_cons]
        omega
      have hn1 : 1 ≤ n := by
        rw [← hlen]
        cases pre with
        | nil => exact absurd rfl hpre
        | cons _ _ => simp
      obtain ⟨f, rfl⟩ : ∃ f, fuel = f + 1 := ⟨fuel - 1, by omega⟩
      obtain ⟨m, hm⟩ : ∃ m, n = m + 1 := ⟨n - 1, by omega⟩
      have hstep : ∀ f', btRev prev (f' + 1) v = v :: btRev prev f' u := by
        intro f'
        simp [btRev, hlook]
      obtain ⟨hw, heq⟩ := ih pre'.length hn' pre' u pu'
        (post' ++ (v, some u) :: post) hsplit' rfl f (by omega)
      have heqm : btRev prev m u = btRev prev pre'.length u :=
        (ih pre'.length hn' pre' u pu' (post' ++ (v, some u) :: post)
          hsplit' rfl m (by omega)).2
      constructor
      · rw [hstep f]
        simpa using hw.append_edge hadj
      · rw [hstep f, hm, hstep m, heq, heqm]

theorem btPath_walk {g : Graph} {s : String} {prev : PrevMap}
    (hinv : PrevInv g s prev) (v : String) (hv : v ∈ dictKeys prev) :
    Walk g s v (btPath prev v) := by
  obtain ⟨pre, pu, post, hsplit⟩ := mem_keys_split prev v hv
  have hlen : pre.length ≤ prev.length := by
    rw [hsplit]; simp only [List.length_append, List.length_cons]; omega
  exact (btRev_spec hinv pre.length pre v pu post hsplit rfl prev.length hlen).1

theorem btRev_extend {g : Graph} {s : String} {prev : PrevMap}
    (hinv : PrevInv g s prev) (ext : PrevMap) :
    ∀ n pre v pu post, prev = pre ++ (v, pu) :: post → pre.length = n →
    ∀ fuel, btRev (prev ++ ext) fuel v = btRev prev fuel v := by
  intro n
  induction n using Nat.strong_induction_on with
  | _ n ih =>
    intro pre v pu post hsplit hlen fuel
    have hvmem : v ∈ dictKeys prev := by
      rw [hsplit, dictKeys_append]
      simp [dictKeys]
    have hlook : List.lookup v prev = some pu := by
      rw [hsplit]
      exact lookup_split pre post v pu (hsplit ▸ hinv.nodup)
    have hlook2 : List.lookup v (prev ++ ext) = some pu := by
      rw [lookup_append_left _ _ _ hvmem, hlook]
    cases fuel with
    | zero => rfl
    | succ f =>
      cases pu with
      | none => simp [btRev, hlook, hlook2]
      | some u =>
        have hpre : pre ≠ [] := by
          intro hc
          subst hc
          obtain ⟨rest, hr⟩ := hinv.head
          rw [List.nil_append, hr] at hsplit
          have := congrArg Prod.snd (List.head_eq_of_cons_eq hsplit.symm)
          simp at this
        obtain ⟨u', hu'eq, hu, hadj⟩ := hinv.parent pre v (some u) post hsplit hpre
        have huu : u = u' := by injection hu'eq
        subst huu
        obtain ⟨pre', pu', post', hpre_split⟩ := mem_keys_split pre u hu
        have hsplit' : prev = pre' ++ (u, pu') :: (post' ++ (v, some u) :: post) := by
          rw [hsplit, hpre_split]
          simp
        have hn' : pre'.length < n := by
          rw [← hlen, hpre_split]
          simp only [List.length_append, List.length_cons]
          omega
        have hrec := ih pre'.length hn' pre' u pu'
          (post' ++ (v, some u) :: post) hsplit' rfl f
        simp [btRev, hlook, hlook2, hrec]

theorem btPath_stable {g : Graph} {s : String} {prev : PrevMap}
    (hinv : PrevInv g s prev) (ext : PrevMap) (v : String)
    (hv : v ∈ dictKeys prev) : btPath (prev ++ ext) v = btPath prev v := by
  obtain ⟨pre, pu, post, hsplit⟩ := mem_keys_split prev v hv
  have hlen1 : pre.length ≤ prev.length := by
    rw [hsplit]; simp only [List.length_append, List.length_cons]; omega
  have hlen2 : prev.length ≤ (prev ++ ext).length := by simp
  unfold btPath
  rw [btRev_extend hinv ext pre.length pre v pu post hsplit rfl]
  rw [(btRev_spec hinv pre.length pre v pu post hsplit rfl
        (prev ++ ext).length (le_trans hlen1 hlen2)).2,
      (btRev_spec hinv pre.length pre v pu post hsplit rfl
        prev.length hlen1).2]

theorem btPath_fresh_append {g : Graph} {s : String} {pp : PrevMap}
    (hinv : PrevInv g s pp) (v u : String) (hu : u ∈ dictKeys pp)
    (hv : v ∉ dictKeys pp) :
    btPath (pp ++ [(v, some u)]) v = btPath pp u ++ [v] := by
  have hlook : List.lookup v (pp ++ [(v, some u)]) = some (some u) := by
    rw [lookup_append_right _ _ _ hv]
    simp [List.lookup]
  have hlen : (pp ++ [(v, some u)]).length = pp.length + 1 := by simp
  unfold btPath
  rw [hlen]
  have hstep : btRev (pp ++ [(v, some u)]) (pp.length + 1) v =
      v :: btRev (pp ++ [(v, some u)]) pp.length u := by
    simp [btRev, hlook]
  rw [hstep]
  obtain ⟨pre, pu, post, hsplit⟩ := mem_keys_split pp u hu
  rw [btRev_extend hinv [(v, some u)] pre.length pre u pu post hsplit rfl]
  simp

theorem btPath_root {g : Graph} {s : String} {prev : PrevMap}
    (hinv : PrevInv g s prev) : btPath prev s = [s] := by
  obtain ⟨rest, hr⟩ := hinv.head
  have hsplit : prev = [] ++ (s, none) :: rest := by rw [hr]; rfl
  unfold btPath
  rw [(btRev_spec hinv 0 [] s none rest hsplit rfl prev.length (by omega)).2]
  rfl

theorem keys_map_pair (news : List String) (u : String) :
    dictKeys (news.map (fun w => (w, some u))) = news := by
  induction news with
  | nil => rfl
  | cons a l ihn =>
    simp only [dictKeys, List.map_cons] at ihn ⊢
    rw [ihn]

theorem PrevInv.append_news {g : Graph} {s : String} {prev : PrevMap}
    (hinv : PrevInv g s prev) (news : List String) (u : String)
    (hu : u ∈ dictKeys prev) (hadj : ∀ w ∈ news, Adj g u w)
    (hfresh : ∀ w ∈ news, w ∉ dictKeys prev) (hnd : news.Nodup) :
    PrevInv g s (prev ++ news.map (fun w => (w, some u))) := by
  refine ⟨?_, ?_, ?_⟩
  · obtain ⟨rest, hr⟩ := hinv.head
    exact ⟨rest ++ news.map (fun w => (w, some u)), by rw [hr]; rfl⟩
  · rw [dictKeys_append, keys_map_pair]
    exact List.Nodup.append hinv.nodup hnd
      (fun a ha ha' => hfresh a ha' ha)
  · intro pre v pu post hsplit hpre
    rcases List.append_eq_append_iff.mp hsplit with ⟨a', ha1, ha2⟩ | ⟨c', hc1, hc2⟩
    · have hventry : (v, pu) ∈ news.map (fun w => (w, some u)) := by
        rw [ha2]
        exact List.mem_append_right _ (List.mem_cons_self _ _)
      obtain ⟨w, hw, hweq⟩ := List.mem_map.mp hventry
      have hv : v = w := (congrArg Prod.fst hweq).symm
      have hpu : pu = some u := (congrArg Prod.snd hweq).symm
      refine ⟨u, hpu, ?_, hv ▸ hadj w hw⟩
      rw [ha1, dictKeys_append]
      exact List.mem_append_left _ hu
    · cases c' with
      | nil =>
        have hventry : (v, pu) ∈ news.map (fun w => (w, some u)) := by
          rw [List.nil_append] at hc2
          rw [← hc2]
          exact List.mem_cons_self _ _
        obtain ⟨w, hw, hweq⟩ := List.mem_map.mp hventry
        have hv : v = w := (congrArg Prod.fst hweq).symm
        have hpu : pu = some u := (congrArg Prod.snd hweq).symm
        refine ⟨u, hpu, ?_, hv ▸ hadj w hw⟩
        rw [List.append_nil] at hc1
        rw [← hc1]
        exact hu
      | cons e c'' =>
        have he : e = (v, pu) := (List.head_eq_of_cons_eq hc2).symm
        have hpost : post = c'' ++ news.map (fun w => (w, some u)) :=
          List.tail_eq_of_cons_eq hc2
        rw [he] at hc1
        exact hinv.parent pre v pu c'' hc1 hpre

/-! ## The BFS loop invariant and its preservation -/

/-- Node count of the reconstructed BFS path of a visited node (its BFS
depth plus one). -/
def btLen (prev : PrevMap) (v : String) : Nat := (btPath prev v).length

theorem contains_true_iff (l : List String) (a : String) :
    l.contains a = true ↔ a ∈ l := by
  simp

theorem processNbrs_spec (goal u : String) (prev : PrevMap) :
    ∀ (nbrs news : List String),
      (∀ w ∈ news, w ∉ dictKeys prev) → news.Nodup → goal ∉ news →
      (∀ (prev' : PrevMap) (add : List String),
        processNbrs goal u nbrs (prev ++ news.map (fun w => (w, some u))) news
          = .inr (prev', add) →
        ∃ news', prev' = prev ++ news'.map (fun w => (w, some u)) ∧
          add = news' ∧
          (∀ w ∈ news', w ∉ dictKeys prev) ∧ news'.Nodup ∧ goal ∉ news' ∧
          (∀ w ∈ news, w ∈ news') ∧
          (∀ w ∈ news', w ∈ news ∨ w ∈ nbrs) ∧
          (∀ v ∈ nbrs, v ∈ dictKeys prev ∨ v ∈ news')) ∧
      (∀ path,
        processNbrs goal u nbrs (prev ++ news.map (fun w => (w, some u))) news
          = .inl path →
        goal ∈ nbrs ∧
        ∃ news', (∀ w ∈ news', w ∉ dictKeys prev) ∧ news'.Nodup ∧
          goal ∉ news' ∧ (∀ w ∈ news', w ∈ news ∨ w ∈ nbrs) ∧
          path = btPath
            (prev ++ (news' ++ [goal]).map (fun w => (w, some u))) goal) := by
  intro nbrs
  induction nbrs with
  | nil =>
    intro news hfresh hnd hgoal
    constructor
    · intro prev' add hres
      simp only [processNbrs] at hres
      refine ⟨news, ?_, ?_, hfresh, hnd, hgoal, fun w hw => hw,
        fun w hw => Or.inl hw, fun v hv => absurd hv (List.not_mem_nil v)⟩
      · exact (congrArg Prod.fst (Sum.inr.inj hres)).symm
      · exact (congrArg Prod.snd (Sum.inr.inj hres)).symm
    · intro path hres
      simp only [processNbrs] at hres
      exact Sum.noConfusion hres
  | cons v rest ih =>
    intro news hfresh hnd hgoal
    have hK : dictKeys (prev ++ news.map (fun w => (w, some u))) =
        dictKeys prev ++ news := by
      rw [dictKeys_append, keys_map_pair]
    by_cases hv : v ∈ dictKeys (prev ++ news.map (fun w => (w, some u)))
    · have hb : (dictKeys (prev ++ news.map (fun w => (w, some u)))).contains v
          = true := (contains_true_iff _ _).mpr hv
      have hstep : processNbrs goal u (v :: rest)
          (prev ++ news.map (fun w => (w, some u))) news =
          processNbrs goal u rest
            (prev ++ news.map (fun w => (w, some u))) news := by
        simp [processNbrs, hv]
      obtain ⟨ihr, ihl⟩ := ih news hfresh hnd hgoal
      constructor
      · intro prev' add hres
        rw [hstep] at hres
        obtain ⟨news', h1, h2, h3, h4, h5, h6, h7, h8⟩ := ihr prev' add hres
        refine ⟨news', h1, h2, h3, h4, h5, h6,
          fun w hw => (h7 w hw).imp id (List.mem_cons_of_mem v), ?_⟩
        intro x hx
        rcases List.mem_cons.mp hx with rfl | hx'
        · rw [hK] at hv
          rcases List.mem_append.mp hv with h | h
          · exact Or.inl h
          · exact Or.inr (h6 x h)
        · exact h8 x hx'
      · intro path hres
        rw [hstep] at hres
        obtain ⟨hg, news', h1, h2, h3, h4, h5⟩ := ihl path hres
        exact ⟨List.mem_cons_of_mem v hg, news', h1, h2, h3,
          fun w hw => (h4 w hw).imp id (List.mem_cons_of_mem v), h5⟩
    · have hb : (dictKeys (prev ++ news.map (fun w => (w, some u)))).contains v
          = false := by
        rw [← Bool.not_eq_true, contains_true_iff]
        exact hv
      have hvprev : v ∉ dictKeys prev := fun hc =>
        hv (by rw [hK]; exact List.mem_append_left _ hc)
      have hvnews : v ∉ news := fun hc =>
        hv (by rw [hK]; exact List.mem_append_right _ hc)
      by_cases hvg : v = goal
      · have hvgoal : goal ∉ dictKeys (prev ++ news.map (fun w => (w, some u))) := by
          rw [← hvg]
          exact hv
        have hstep : processNbrs goal u (v :: rest)
            (prev ++ news.map (fun w => (w, some u))) news =
            .inl (btPath
              ((prev ++ news.map (fun w => (w, some u))) ++ [(v, some u)]) v) := by
          simp [processNbrs, hv, hvg, hvgoal]
        constructor
        · intro prev' add hres
          rw [hstep] at hres
          exact Sum.noConfusion hres
        · intro path hres
          rw [hstep] at hres
          have hpath := Sum.inl.inj hres
          constructor
          · rw [← hvg]
            exact List.mem_cons_self _ _
          · refine ⟨news, hfresh, hnd, hgoal, fun w hw => Or.inl hw, ?_⟩
            rw [← hpath, ← hvg]
            congr 1
            rw [List.map_append, List.append_assoc]
            rfl
      · have hstep : processNbrs goal u (v :: rest)
            (prev ++ news.map (fun w => (w, some u))) news =
            processNbrs goal u rest
              (prev ++ (news ++ [v]).map (fun w => (w, some u)))
              (news ++ [v]) := by
          simp [processNbrs, hv, hvg, List.map_append, List.append_assoc]
        have hfresh' : ∀ w ∈ news ++ [v], w ∉ dictKeys prev := by
          intro w hw
          rcases List.mem_append.mp hw with h | h
          · exact hfresh w h
          · rw [List.mem_singleton.mp h]
            exact hvprev
        have hnd' : (news ++ [v]).Nodup := by
          rw [List.nodup_append]
          exact ⟨hnd, List.nodup_singleton v,
            fun a ha hb' => hvnews (by rw [← List.mem_singleton.mp hb']; exact ha)⟩
        have hgoal' : goal ∉ news ++ [v] := by
          intro hc
          rcases List.mem_append.mp hc with h | h
          · exact hgoal h
          · exact hvg (List.mem_singleton.mp h).symm
        obtain ⟨ihr, ihl⟩ := ih (news ++ [v]) hfresh' hnd' hgoal'
        constructor
        · intro prev' add hres
          rw [hstep] at hres
          obtain ⟨news', h1, h2, h3, h4, h5, h6, h7, h8⟩ := ihr prev' add hres
          refine ⟨news', h1, h2, h3, h4, h5,
            fun w hw => h6 w (List.mem_append_left _ hw), ?_, ?_⟩
          · intro w hw
            rcases h7 w hw with h | h
            · rcases List.mem_append.mp h with h' | h'
              · exact Or.inl h'
              · refine Or.inr ?_
                rw [List.mem_singleton.mp h']
                exact List.mem_cons_self _ _
            · exact Or.inr (List.mem_cons_of_mem v h)
          · intro x hx
            rcases List.mem_cons.mp hx with rfl | hx'
            · exact Or.inr (h6 x (List.mem_append_right _ (List.mem_singleton_self x)))
            · exact h8 x hx'
        · intro path hres
          rw [hstep] at hres
          obtain ⟨hg, news', h1, h2, h3, h4, h5⟩ := ihl path hres
          refine ⟨List.mem_cons_of_mem v hg, news', h1, h2, h3, ?_, h5⟩
          intro w hw
          rcases h4 w hw with h | h
          · rcases List.mem_append.mp h with h' | h'
            · exact Or.inl h'
            · refine Or.inr ?_
              rw [List.mem_singleton.mp h']
              exact List.mem_cons_self _ _
          · exact Or.inr (List.mem_cons_of_mem v h)

/-- The invariant holding at every entry of the BFS `while q` loop. -/
structure BfsInv (g : Graph) (s goal : String) (q : List String)
    (prev : PrevMap) : Prop where
  prevInv : PrevInv g s prev
  qSub : ∀ v ∈ q, v ∈ dictKeys prev
  qNodup : q.Nodup
  goalNot : goal ∉ dictKeys prev
  closed : ∀ w ∈ dictKeys prev, w ∉ q → ∀ v, Adj g w v → v ∈ dictKeys prev
  sorted : q.Pairwise (fun a b => btLen prev a ≤ btLen prev b)
  spread : ∀ a ∈ q, ∀ b ∈ q, btLen prev b ≤ btLen prev a + 1
  minWalk : ∀ v ∈ dictKeys prev, ∀ p, Walk g s v p → btLen prev v ≤ p.length

theorem prevInv_start_mem {g : Graph} {s : String} {prev : PrevMap}
    (hpi : PrevInv g s prev) : s ∈ dictKeys prev := by
  obtain ⟨rest, hr⟩ := hpi.head
  rw [hr]
  exact List.mem_cons_self _ _

/-- Any walk from the start to a still-unvisited node is at least one
hop longer than the reconstructed path of the queue front. -/
theorem reach_lower_bound {g : Graph} {s goal u : String} {q' : List String}
    {prev : PrevMap} (hinv : BfsInv g s goal (u :: q') prev)
    (v : String) (hv : v ∉ dictKeys prev) (w : List String)
    (hw : Walk g s v w) : btLen prev u + 1 ≤ w.length := by
  obtain ⟨x, y, w₁, hw₁, hx, hy, hxy, hlen⟩ :=
    walk_cut hw (dictKeys prev) (prevInv_start_mem hinv.prevInv) hv
  have hxq : x ∈ u :: q' := by
    by_contra hxq
    exact hy (hinv.closed x hx hxq y hxy)
  have hux : btLen prev u ≤ btLen prev x := by
    rcases List.mem_cons.mp hxq with rfl | hx'
    · exact le_refl _
    · exact (List.pairwise_cons.mp hinv.sorted).1 x hx'
  have hxw : btLen prev x ≤ w₁.length := hinv.minWalk x hx w₁ hw₁
  omega

theorem adj_sub_verts (g : Graph) (u : String) :
    ∀ v ∈ adjOf g u, v ∈ vertsList g := by
  intro v hv
  unfold adjOf dictGetD at hv
  cases hg : dictGet? g u with
  | none => rw [hg] at hv; simp at hv
  | some nb =>
    rw [hg] at hv
    simp only [Option.getD_some] at hv
    have hmem := (dictGet?_mem g u nb hg).1
    unfold vertsList
    exact List.mem_append_right _ (List.mem_flatMap.mpr ⟨(u, nb), hmem, hv⟩)

/-- The termination measure of the BFS loop: twice the number of
unvisited graph vertices plus the queue length. -/
def bfsMeasure (g : Graph) (q : List String) (prev : PrevMap) : Nat :=
  2 * ((vertsList g).toFinset \ (dictKeys prev).toFinset).card + q.length

theorem bfsMeasure_step (g : Graph) (q' news : List String) (prev : PrevMap)
    (u : String) (hfresh : ∀ w ∈ news, w ∉ dictKeys prev)
    (hnd : news.Nodup) (hsub : ∀ w ∈ news, w ∈ vertsList g) :
    bfsMeasure g (q' ++ news) (prev ++ news.map (fun w => (w, some u)))
      + 1 + news.length = bfsMeasure g (u :: q') prev := by
  unfold bfsMeasure
  have hkeys : dictKeys (prev ++ news.map (fun w => (w, some u))) =
      dictKeys prev ++ news := by
    rw [dictKeys_append, keys_map_pair]
  rw [hkeys, List.toFinset_append]
  have heq : (vertsList g).toFinset \
      ((dictKeys prev).toFinset ∪ news.toFinset) =
      ((vertsList g).toFinset \ (dictKeys prev).toFinset) \ news.toFinset := by
    ext a
    simp only [Finset.mem_sdiff, Finset.mem_union]
    tauto
  rw [heq]
  have hNsub : news.toFinset ⊆
      (vertsList g).toFinset \ (dictKeys prev).toFinset := by
    intro a ha
    rw [List.mem_toFinset] at ha
    rw [Finset.mem_sdiff, List.mem_toFinset, List.mem_toFinset]
    exact ⟨hsub a ha, hfresh a ha⟩
  have hcard := Finset.card_sdiff_add_card_eq_card hNsub
  have hNcard : news.toFinset.card = news.length :=
    List.toFinset_card_of_nodup hnd
  simp only [List.length_append, List.length_cons]
  omega

theorem btPath_news {g : Graph} {s : String} {prev : PrevMap}
    (hpi : PrevInv g s prev) (news : List String) (u : String)
    (hu : u ∈ dictKeys prev) (hadj : ∀ w ∈ news, Adj g u w)
    (hfresh : ∀ w ∈ news, w ∉ dictKeys prev) (hnd : news.Nodup) :
    ∀ w ∈ news, btPath (prev ++ news.map (fun x => (x, some u))) w =
      btPath prev u ++ [w] := by
  intro w hw
  obtain ⟨nA, nB, hsplit⟩ := List.append_of_mem hw
  subst hsplit
  have hsubA1 : ∀ x ∈ nA ++ [w], x ∈ nA ++ w :: nB := by
    intro x hx
    rcases List.mem_append.mp hx with h | h
    · exact List.mem_append_left _ h
    · rw [List.mem_singleton.mp h]
      exact List.mem_append_right _ (List.mem_cons_self _ _)
  have hndA : (nA ++ [w]).Nodup := by
    have hsub : (nA ++ [w]).Sublist (nA ++ w :: nB) :=
      List.Sublist.append_left (List.Sublist.cons₂ w (List.nil_sublist nB)) nA
    exact hsub.nodup hnd
  have hpiA0 : PrevInv g s (prev ++ nA.map (fun x => (x, some u))) :=
    hpi.append_news nA u hu (fun x hx => hadj x (List.mem_append_left _ hx))
      (fun x hx => hfresh x (List.mem_append_left _ hx))
      (List.nodup_append.mp hndA).1
  have hwA : w ∉ dictKeys (prev ++ nA.map (fun x => (x, some u))) := by
    rw [dictKeys_append, keys_map_pair]
    intro hc
    rcases List.mem_append.mp hc with h | h
    · exact hfresh w (List.mem_append_right _ (List.mem_cons_self _ _)) h
    · exact (List.nodup_append.mp hndA).2.2 h (List.mem_singleton_self w)
  have hpiA : PrevInv g s (prev ++ (nA ++ [w]).map (fun x => (x, some u))) :=
    hpi.append_news (nA ++ [w]) u hu (fun x hx => hadj x (hsubA1 x hx))
      (fun x hx => hfresh x (hsubA1 x hx)) hndA
  have huA : u ∈ dictKeys (prev ++ nA.map (fun x => (x, some u))) := by
    rw [dictKeys_append]
    exact List.mem_append_left _ hu
  have h1 : btPath ((prev ++ nA.map (fun x => (x, some u))) ++ [(w, some u)]) w
      = btPath (prev ++ nA.map (fun x => (x, some u))) u ++ [w] :=
    btPath_fresh_append hpiA0 w u huA hwA
  have hassocA : prev ++ (nA ++ [w]).map (fun x => (x, some u)) =
      (prev ++ nA.map (fun x => (x, some u))) ++ [(w, some u)] := by
    rw [List.map_append, List.append_assoc]
    rfl
  have hext : prev ++ (nA ++ w :: nB).map (fun x => (x, some u)) =
      (prev ++ (nA ++ [w]).map (fun x => (x, some u)))
        ++ nB.map (fun x => (x, some u)) := by
    simp [List.map_append, List.append_assoc]
  have h2 : btPath (prev ++ (nA ++ w :: nB).map (fun x => (x, some u))) w =
      btPath (prev ++ (nA ++ [w]).map (fun x => (x, some u))) w := by
    rw [hext]
    refine btPath_stable hpiA _ w ?_
    rw [dictKeys_append, keys_map_pair]
    exact List.mem_append_right _
      (List.mem_append_right _ (List.mem_singleton_self _))
  rw [h2, hassocA, h1, btPath_stable hpi _ u hu]

theorem bfsLoop_spec (g : Graph) (s goal : String) :
    ∀ (fuel : Nat) (q : List String) (prev : PrevMap),
      BfsInv g s goal q prev → bfsMeasure g q prev ≤ fuel →
      (∀ p, bfsLoop g goal fuel q prev = some p →
        Walk g s goal p ∧ ∀ w, Walk g s goal w → p.length ≤ w.length) ∧
      (bfsLoop g goal fuel q prev = none → ∀ w, ¬ Walk g s goal w) := by
  intro fuel
  induction fuel with
  | zero =>
    intro q prev hinv hmu
    cases q with
    | nil =>
      constructor
      · intro p hp
        exact absurd hp (by simp [bfsLoop])
      · intro _ w hw
        exact no_walk_of_closed (dictKeys prev)
          (fun x hx v hv => hinv.closed x hx (List.not_mem_nil x) v hv)
          (prevInv_start_mem hinv.prevInv) hinv.goalNot w hw
    | cons u q' =>
      exfalso
      unfold bfsMeasure at hmu
      simp only [List.length_cons] at hmu
      omega
  | succ fuel ih =>
    intro q prev hinv hmu
    cases q with
    | nil =>
      constructor
      · intro p hp
        exact absurd hp (by simp [bfsLoop])
      · intro _ w hw
        exact no_walk_of_closed (dictKeys prev)
          (fun x hx v hv => hinv.closed x hx (List.not_mem_nil x) v hv)
          (prevInv_start_mem hinv.prevInv) hinv.goalNot w hw
    | cons u q' =>
      have hu : u ∈ dictKeys prev := hinv.qSub u (List.mem_cons_self _ _)
      have hPN := processNbrs_spec goal u prev (adjOf g u) []
        (fun w hw => absurd hw (List.not_mem_nil w)) List.nodup_nil
        (List.not_mem_nil goal)
      simp only [List.map_nil, List.append_nil] at hPN
      obtain ⟨hPNr, hPNl⟩ := hPN
      cases hres : processNbrs goal u (adjOf g u) prev [] with
      | inl path =>
        obtain ⟨hgadj, news', hfresh, hnd, hgnews, hsubn, hpath⟩ :=
          hPNl path hres
        have hadjn : ∀ w ∈ news', Adj g u w := by
          intro w hw
          rcases hsubn w hw with h | h
          · exact absurd h (List.not_mem_nil w)
          · exact h
        have hadjE : ∀ w ∈ news' ++ [goal], Adj g u w := by
          intro w hw
          rcases List.mem_append.mp hw with h | h
          · exact hadjn w h
          · rw [List.mem_singleton.mp h]
            exact hgadj
        have hfreshE : ∀ w ∈ news' ++ [goal], w ∉ dictKeys prev := by
          intro w hw
          rcases List.mem_append.mp hw with h | h
          · exact hfresh w h
          · rw [List.mem_singleton.mp h]
            exact hinv.goalNot
        have hndE : (news' ++ [goal]).Nodup := by
          rw [List.nodup_append]
          exact ⟨hnd, List.nodup_singleton _,
            fun a ha hb => hgnews ((List.mem_singleton.mp hb) ▸ ha)⟩
        have hpiF : PrevInv g s
            (prev ++ (news' ++ [goal]).map (fun w => (w, some u))) :=
          hinv.prevInv.append_news (news' ++ [goal]) u hu hadjE hfreshE hndE
        have hgmem : goal ∈ dictKeys
            (prev ++ (news' ++ [goal]).map (fun w => (w, some u))) := by
          rw [dictKeys_append, keys_map_pair]
          exact List.mem_append_right _
            (List.mem_append_right _ (List.mem_singleton_self _))
        have hwalk : Walk g s goal path := by
          rw [hpath]
          exact btPath_walk hpiF goal hgmem
        have hpathEq : path = btPath prev u ++ [goal] := by
          rw [hpath]
          have hassoc : prev ++ (news' ++ [goal]).map (fun w => (w, some u)) =
              (prev ++ news'.map (fun w => (w, some u))) ++ [(goal, some u)] := by
            rw [List.map_append, List.append_assoc]
            rfl
          rw [hassoc]
          have hpiA : PrevInv g s (prev ++ news'.map (fun w => (w, some u))) :=
            hinv.prevInv.append_news news' u hu hadjn hfresh hnd
          have hgA : goal ∉ dictKeys
              (prev ++ news'.map (fun w => (w, some u))) := by
            rw [dictKeys_append, keys_map_pair]
            intro hc
            rcases List.mem_append.mp hc with h | h
            · exact hinv.goalNot h
            · exact hgnews h
          have huA : u ∈ dictKeys (prev ++ news'.map (fun w => (w, some u))) := by
            rw [dictKeys_append]
            exact List.mem_append_left _ hu
          rw [btPath_fresh_append hpiA goal u huA hgA,
            btPath_stable hinv.prevInv (news'.map (fun w => (w, some u))) u hu]
        have hlen : path.length = btLen prev u + 1 := by
          rw [hpathEq]
          simp [btLen]
        have hloop : bfsLoop g goal (fuel + 1) (u :: q') prev = some path := by
          simp [bfsLoop, hres]
        constructor
        · intro p hp
          rw [hloop] at hp
          have hpp := Option.some.inj hp
          constructor
          · rw [← hpp]
            exact hwalk
          · intro w hw
            rw [← hpp, hlen]
            exact reach_lower_bound hinv goal hinv.goalNot w hw
        · intro hnone
          rw [hloop] at hnone
          exact Option.noConfusion hnone
      | inr pa =>
        obtain ⟨prev', add⟩ := pa
        obtain ⟨news', hprev', hadd, hfresh, hnd, hgnews, -, hsubn, hcover⟩ :=
          hPNr prev' add hres
        have hadjn : ∀ w ∈ news', Adj g u w := by
          intro w hw
          rcases hsubn w hw with h | h
          · exact absurd h (List.not_mem_nil w)
          · exact h
        have hversn : ∀ w ∈ news', w ∈ vertsList g :=
          fun w hw => adj_sub_verts g u w (hadjn w hw)
        have hpi' : PrevInv g s prev' := by
          rw [hprev']
          exact hinv.prevInv.append_news news' u hu hadjn hfresh hnd
        have hK' : dictKeys prev' = dictKeys prev ++ news' := by
          rw [hprev', dictKeys_append, keys_map_pair]
        have hstab : ∀ w ∈ dictKeys prev, btLen prev' w = btLen prev w := by
          intro w hw
          unfold btLen
          rw [hprev', btPath_stable hinv.prevInv _ w hw]
        have hnew : ∀ w ∈ news', btLen prev' w = btLen prev u + 1 := by
          intro w hw
          unfold btLen
          rw [hprev', btPath_news hinv.prevInv news' u hu hadjn hfresh hnd w hw]
          simp [btLen]
        have hql : ∀ x ∈ q', btLen prev u ≤ btLen prev x :=
          fun x hx => (List.pairwise_cons.mp hinv.sorted).1 x hx
        have hqu : ∀ x ∈ q', btLen prev x ≤ btLen prev u + 1 :=
          fun x hx => hinv.spread u (List.mem_cons_self _ _) x
            (List.mem_cons_of_mem _ hx)
        have hq'sub : ∀ x ∈ q', x ∈ dictKeys prev :=
          fun x hx => hinv.qSub x (List.mem_cons_of_mem _ hx)
        have hinv' : BfsInv g s goal (q' ++ news') prev' := by
          refine ⟨hpi', ?_, ?_, ?_, ?_, ?_, ?_, ?_⟩
          · intro v hv
            rw [hK']
            rcases List.mem_append.mp hv with h | h
            · exact List.mem_append_left _ (hq'sub v h)
            · exact List.mem_append_right _ h
          · rw [List.nodup_append]
            refine ⟨(List.nodup_cons.mp hinv.qNodup).2, hnd, ?_⟩
            intro a ha hb
            exact hfresh a hb (hq'sub a ha)
          · rw [hK']
            intro hc
            rcases List.mem_append.mp hc with h | h
            · exact hinv.goalNot h
            · exact hgnews h
          · intro w hw hwq v hv
            rw [hK'] at hw ⊢
            rcases List.mem_append.mp hw with h | h
            · by_cases hwu : w = u
              · subst hwu
                rcases hcover v hv with h' | h'
                · exact List.mem_append_left _ h'
                · exact List.mem_append_right _ h'
              · have hwq2 : w ∉ u :: q' := by
                  intro hc
                  rcases List.mem_cons.mp hc with h' | h'
                  · exact hwu h'
                  · exact hwq (List.mem_append_left _ h')
                exact List.mem_append_left _ (hinv.closed w h hwq2 v hv)
            · exact absurd (List.mem_append_right q' h) hwq
          · rw [List.pairwise_append]
            refine ⟨?_, ?_, ?_⟩
            · refine List.Pairwise.imp_of_mem ?_
                (List.pairwise_cons.mp hinv.sorted).2
              intro a b ha hb hle
              rw [hstab a (hq'sub a ha), hstab b (hq'sub b hb)]
              exact hle
            · refine List.Pairwise.imp_of_mem ?_ hnd
              intro a b ha hb _
              rw [hnew a ha, hnew b hb]
            · intro a ha b hb
              rw [hstab a (hq'sub a ha), hnew b hb]
              exact hqu a ha
          · intro a ha b hb
            rcases List.mem_append.mp ha with ha' | ha' <;>
              rcases List.mem_append.mp hb with hb' | hb'
            · rw [hstab a (hq'sub a ha'), hstab b (hq'sub b hb')]
              exact hinv.spread a (List.mem_cons_of_mem _ ha') b
                (List.mem_cons_of_mem _ hb')
            · rw [hstab a (hq'sub a ha'), hnew b hb']
              have := hql a ha'
              omega
            · rw [hnew a ha', hstab b (hq'sub b hb')]
              have := hqu b hb'
              omega
            · rw [hnew a ha', hnew b hb']
              omega
          · intro v hv p hp
            rw [hK'] at hv
            rcases List.mem_append.mp hv with h | h
            · rw [hstab v h]
              exact hinv.minWalk v h p hp
            · rw [hnew v h]
              exact reach_lower_bound hinv v (hfresh v h) p hp
        have hmu' : bfsMeasure g (q' ++ news') prev' ≤ fuel := by
          have hstepmu := bfsMeasure_step g q' news' prev u hfresh hnd hversn
          rw [hprev']
          omega
        have hloop : bfsLoop g goal (fuel + 1) (u :: q') prev =
            bfsLoop g goal fuel (q' ++ add) prev' := by
          simp [bfsLoop, hres]
        rw [hloop, hadd]
        exact ih (q' ++ news') prev' hinv' hmu'

theorem bfs_initial_inv (g : Graph) (start goal : String)
    (hne : start ≠ goal) :
    BfsInv g start goal [start] [(start, none)] := by
  have hpi : PrevInv g start [(start, none)] := by
    refine ⟨⟨[], rfl⟩, by simp [dictKeys], ?_⟩
    intro pre v pu post hsplit hpre
    exfalso
    have := congrArg List.length hsplit
    simp only [List.length_singleton, List.length_append, List.length_cons]
      at this
    cases pre with
    | nil => exact hpre rfl
    | cons a l => simp at this; omega
  have hbt : btLen [(start, none)] start = 1 := by
    unfold btLen
    rw [btPath_root hpi]
    rfl
  refine ⟨hpi, ?_, List.nodup_singleton _, ?_, ?_, ?_, ?_, ?_⟩
  · intro v hv
    rw [List.mem_singleton.mp hv]
    simp [dictKeys]
  · intro hc
    simp [dictKeys] at hc
    exact hne hc.symm
  · intro w hw hwq v hv
    simp [dictKeys] at hw
    exact absurd (by rw [hw]; exact List.mem_singleton_self _ : w ∈ [start]) hwq
  · exact List.pairwise_singleton _ _
  · intro a ha b hb
    rw [List.mem_singleton.mp ha, List.mem_singleton.mp hb]
    omega
  · intro v hv p hp
    simp [dictKeys] at hv
    rw [hv, hbt]
    exact hp.length_pos

theorem bfsMeasure_init_le (g : Graph) (start : String) :
    bfsMeasure g [start] [(start, none)] ≤ bfsFuel g := by
  unfold bfsMeasure bfsFuel
  have h1 : ((vertsList g).toFinset \
      (dictKeys ([(start, none)] : PrevMap)).toFinset).card ≤
      (vertsList g).toFinset.card :=
    Finset.card_le_card Finset.sdiff_subset
  have h2 : (vertsList g).toFinset.card ≤ (vertsList g).length :=
    (vertsList g).toFinset_card_le
  simp only [List.length_singleton]
  omega

/-- Soundness and optimality of `_shortest_path_between_stops`: a returned
path is a walk from `start` to `goal` whose node count (hence hop count)
is minimal among all walks between the two stops. -/
theorem shortest_path_some (g : Graph) (start goal : String) (p : List String)
    (h : shortest_path_between_stops g start goal = some p) :
    Walk g start goal p ∧ ∀ w, Walk g start goal w → p.length ≤ w.length := by
  unfold shortest_path_between_stops at h
  by_cases hsg : start = goal
  · rw [if_pos hsg] at h
    have hp : p = [start] := (Option.some.inj h).symm
    subst hp
    subst hsg
    exact ⟨Walk.single start, fun w hw => hw.length_pos⟩
  · rw [if_neg hsg] at h
    by_cases hmem : start ∉ dictKeys g ∨ goal ∉ dictKeys g
    · rw [if_pos hmem] at h
      exact Option.noConfusion h
    · rw [if_neg hmem] at h
      exact (bfsLoop_spec g start goal (bfsFuel g) [start] [(start, none)]
        (bfs_initial_inv g start goal hsg)
        (bfsMeasure_init_le g start)).1 p h

/-- Completeness of `_shortest_path_between_stops`: it returns `None`
exactly when the stops differ and either endpoint is missing from the
graph or no walk connects them (when `start = goal` it returns `[start]`
regardless of membership). -/
theorem shortest_path_none_iff (g : Graph) (start goal : String) :
    shortest_path_between_stops g start goal = none ↔
      start ≠ goal ∧ (start ∉ dictKeys g ∨ goal ∉ dictKeys g ∨
        ∀ w, ¬ Walk g start goal w) := by
  constructor
  · intro h
    unfold shortest_path_between_stops at h
    by_cases hsg : start = goal
    · rw [if_pos hsg] at h
      exact Option.noConfusion h
    · rw [if_neg hsg] at h
      refine ⟨hsg, ?_⟩
      by_cases hmem : start ∉ dictKeys g ∨ goal ∉ dictKeys g
      · rcases hmem with hm | hm
        · exact Or.inl hm
        · exact Or.inr (Or.inl hm)
      · rw [if_neg hmem] at h
        exact Or.inr (Or.inr ((bfsLoop_spec g start goal (bfsFuel g)
          [start] [(start, none)] (bfs_initial_inv g start goal hsg)
          (bfsMeasure_init_le g start)).2 h))
  · rintro ⟨hne, hdisj⟩
    unfold shortest_path_between_stops
    rw [if_neg hne]
    by_cases hmem : start ∉ dictKeys g ∨ goal ∉ dictKeys g
    · rw [if_pos hmem]
    · rw [if_neg hmem]
      push_neg at hmem
      rcases hdisj with hm | hm | hm
      · exact absurd hmem.1 (by exact fun h => hm h)
      · exact absurd hmem.2 (by exact fun h => hm h)
      · cases hloop : bfsLoop g goal (bfsFuel g) [start] [(start, none)] with
        | none => rfl
        | some p =>
          exfalso
          exact hm p ((bfsLoop_spec g start goal (bfsFuel g) [start]
            [(start, none)] (bfs_initial_inv g start goal hne)
            (bfsMeasure_init_le g start)).1 p hloop).1

/-! ## The direct-route search -/

theorem slice_spec {α : Type} (l : List α) (i k : Nat) (hi : i < l.length)
    (hk : 1 ≤ k) (hik : i + k ≤ l.length) :
    ((l.drop i).take k).length = k ∧
    ((l.drop i).take k).head? = l[i]? ∧
    ((l.drop i).take k).getLast? = l[i + k - 1]? := by
  have hlen : ((l.drop i).take k).length = k := by
    simp only [List.length_take, List.length_drop]
    omega
  refine ⟨hlen, ?_, ?_⟩
  · rw [List.head?_eq_getElem? _, List.getElem?_take, if_pos (by omega : 0 < k),
      List.getElem?_drop]
    congr 1
  · rw [List.getLast?_eq_getElem? _, hlen, List.getElem?_take,
      if_pos (by omega : k - 1 < k), List.getElem?_drop]
    congr 1
    omega

theorem directSub_spec (stops : List String) (start goal : String)
    (hs : start ∈ stops) (hg : goal ∈ stops) :
    (directSub stops start goal).head? = some start ∧
    (directSub stops start goal).getLast? = some goal ∧
    directSub stops start goal ≠ [] := by
  have hi1 : stops.indexOf start < stops.length :=
    List.indexOf_lt_length.mpr hs
  have hi2 : stops.indexOf goal < stops.length :=
    List.indexOf_lt_length.mpr hg
  have he1 : stops[stops.indexOf start] = start := List.getElem_indexOf hi1
  have he2 : stops[stops.indexOf goal] = goal := List.getElem_indexOf hi2
  unfold directSub
  by_cases hle : stops.indexOf start ≤ stops.indexOf goal
  · rw [if_pos hle]
    obtain ⟨hlen, hhead, hlast⟩ := slice_spec stops (stops.indexOf start)
      (stops.indexOf goal - stops.indexOf start + 1) hi1 (by omega) (by omega)
    refine ⟨?_, ?_, ?_⟩
    · rw [hhead, List.getElem?_eq_getElem hi1, he1]
    · rw [hlast]
      have hidx : stops.indexOf start +
          (stops.indexOf goal - stops.indexOf start + 1) - 1 =
          stops.indexOf goal := by omega
      rw [hidx, List.getElem?_eq_getElem hi2, he2]
    · intro hc
      rw [hc] at hlen
      simp at hlen
  · rw [if_neg hle]
    obtain ⟨hlen, hhead, hlast⟩ := slice_spec stops (stops.indexOf goal)
      (stops.indexOf start - stops.indexOf goal + 1) hi2 (by omega) (by omega)
    refine ⟨?_, ?_, ?_⟩
    · rw [List.head?_reverse, hlast]
      have hidx : stops.indexOf goal +
          (stops.indexOf start - stops.indexOf goal + 1) - 1 =
          stops.indexOf start := by omega
      rw [hidx, List.getElem?_eq_getElem hi1, he1]
    · rw [List.getLast?_reverse, hhead, List.getElem?_eq_getElem hi2, he2]
    · intro hc
      rw [List.reverse_eq_nil_iff] at hc
      rw [hc] at hlen
      simp at hlen

theorem directCand_eq_some (start goal : String) (r : RawRoute)
    (rid : String) (p : List String)
    (h : directCand start goal r = some (rid, p)) :
    rid = r.route_id ∧ start ∈ routeStops r ∧ goal ∈ routeStops r ∧
    p = directSub (routeStops r) start goal := by
  unfold directCand at h
  by_cases hc : start ∈ routeStops r ∧ goal ∈ routeStops r
  · rw [if_pos hc] at h
    have := Option.some.inj h
    exact ⟨(congrArg Prod.fst this).symm, hc.1, hc.2,
      (congrArg Prod.snd this).symm⟩
  · rw [if_neg hc] at h
    exact Option.noConfusion h

theorem directCand_eq_some_of (start goal : String) (r : RawRoute)
    (h1 : start ∈ routeStops r) (h2 : goal ∈ routeStops r) :
    directCand start goal r =
      some (r.route_id, directSub (routeStops r) start goal) := by
  unfold directCand
  rw [if_pos ⟨h1, h2⟩]

theorem direct_path_some (routes : List RawRoute) (start goal rid : String)
    (p : List String)
    (h : direct_path_between_stops routes start goal = some (rid, p)) :
    (∃ r ∈ routes, rid = r.route_id ∧ start ∈ routeStops r ∧
      goal ∈ routeStops r ∧ p = directSub (routeStops r) start goal) ∧
    (∀ r ∈ routes, start ∈ routeStops r → goal ∈ routeStops r →
      p.length ≤ (directSub (routeStops r) start goal).length) := by
  unfold direct_path_between_stops at h
  constructor
  · rcases bestBy_mem _ _ routes none (rid, p) h with h' | ⟨r, hr, hc⟩
    · exact Option.noConfusion h'
    · obtain ⟨h1, h2, h3, h4⟩ := directCand_eq_some start goal r rid p hc
      exact ⟨r, hr, h1, h2, h3, h4⟩
  · intro r hr h1 h2
    have := (bestBy_min _ _ routes none (rid, p) h).2 r hr
      (r.route_id, directSub (routeStops r) start goal)
      (directCand_eq_some_of start goal r h1 h2)
    exact this

theorem direct_path_none_iff (routes : List RawRoute) (start goal : String) :
    direct_path_between_stops routes start goal = none ↔
      ∀ r ∈ routes, ¬(start ∈ routeStops r ∧ goal ∈ routeStops r) := by
  unfold direct_path_between_stops
  rw [bestBy_eq_none]
  constructor
  · rintro ⟨-, hall⟩ r hr hc
    have := hall r hr
    rw [directCand_eq_some_of start goal r hc.1 hc.2] at this
    exact Option.noConfusion this
  · intro hall
    refine ⟨rfl, fun r hr => ?_⟩
    unfold directCand
    rw [if_neg (hall r hr)]

theorem mem_pairList (origin_stops dest_stops : List String)
    (s t : String) :
    (s, t) ∈ pairList origin_stops dest_stops ↔
      s ∈ origin_stops ∧ t ∈ dest_stops := by
  unfold pairList
  rw [List.mem_flatMap]
  constructor
  · rintro ⟨a, ha, hmem⟩
    obtain ⟨b, hb, hbeq⟩ := List.mem_map.mp hmem
    have hs : a = s := (congrArg Prod.fst hbeq)
    have ht : b = t := (congrArg Prod.snd hbeq)
    exact ⟨hs ▸ ha, ht ▸ hb⟩
  · rintro ⟨hs, ht⟩
    exact ⟨s, hs, List.mem_map.mpr ⟨t, ht, rfl⟩⟩

theorem bestDirect_some (routes : List RawRoute)
    (origin_stops dest_stops : List String) (s t rid : String)
    (p : List String)
    (h : bestDirect routes origin_stops dest_stops = some (s, t, rid, p)) :
    s ∈ origin_stops ∧ t ∈ dest_stops ∧
    direct_path_between_stops routes s t = some (rid, p) ∧
    (∀ s' ∈ origin_stops, ∀ t' ∈ dest_stops, ∀ rid' p',
      direct_path_between_stops routes s' t' = some (rid', p') →
      p.length ≤ p'.length) := by
  unfold bestDirect at h
  have hmem := bestBy_mem _ _ (pairList origin_stops dest_stops) none
    (s, t, rid, p) h
  have hmin := (bestBy_min _ _ (pairList origin_stops dest_stops) none
    (s, t, rid, p) h).2
  rcases hmem with h' | ⟨st, hst, hc⟩
  · exact Option.noConfusion h'
  · obtain ⟨st1, st2⟩ := st
    cases hd : direct_path_between_stops routes st1 st2 with
    | none => rw [hd] at hc; exact Option.noConfusion hc
    | some rp =>
      rw [hd] at hc
      simp only [Option.map_some] at hc
      have hc' := Option.some.inj hc
      have hst1 : st1 = s := congrArg (fun x => x.1) hc'
      have hst2 : st2 = t := congrArg (fun x => x.2.1) hc'
      have hrp : rp = (rid, p) := by
        have e1 : rp.1 = rid := congrArg (fun x => x.2.2.1) hc'
        have e2 : rp.2 = p := congrArg (fun x => x.2.2.2) hc'
        cases rp
        simp only at e1 e2
        rw [e1, e2]
      obtain ⟨hso, hto⟩ := (mem_pairList _ _ _ _).mp hst
      refine ⟨hst1 ▸ hso, hst2 ▸ hto, by rw [← hst1, ← hst2, hd, hrp], ?_⟩
      intro s' hs' t' ht' rid' p' hd'
      have := hmin (s', t') ((mem_pairList _ _ _ _).mpr ⟨hs', ht'⟩)
        (s', t', rid', p') (by rw [hd']; rfl)
      exact this

theorem bestDirect_none_iff (routes : List RawRoute)
    (origin_stops dest_stops : List String) :
    bestDirect routes origin_stops dest_stops = none ↔
      ∀ s ∈ origin_stops, ∀ t ∈ dest_stops,
        direct_path_between_stops routes s t = none := by
  unfold bestDirect
  rw [bestBy_eq_none]
  constructor
  · rintro ⟨-, hall⟩ s hs t ht
    have := hall (s, t) ((mem_pairList _ _ _ _).mpr ⟨hs, ht⟩)
    cases hd : direct_path_between_stops routes s t with
    | none => rfl
    | some rp => rw [hd] at this; simp at this
  · intro hall
    refine ⟨rfl, fun st hst => ?_⟩
    obtain ⟨a, b⟩ := st
    obtain ⟨hs, ht⟩ := (mem_pairList _ _ _ _).mp hst
    rw [hall a hs b ht]
    rfl

theorem best_bfs_some (g : Graph) (origin_stops dest_stops : List String)
    (s t : String) (p : List String)
    (h : best_bfs_path g origin_stops dest_stops = some (s, t, p)) :
    s ∈ origin_stops ∧ t ∈ dest_stops ∧
    shortest_path_between_stops g s t = some p ∧
    (∀ s' ∈ origin_stops, ∀ t' ∈ dest_stops, ∀ p',
      shortest_path_between_stops g s' t' = some p' →
      p.length ≤ p'.length) := by
  unfold best_bfs_path at h
  have hmem := bestBy_mem _ _ (pairList origin_stops dest_stops) none
    (s, t, p) h
  have hmin := (bestBy_min _ _ (pairList origin_stops dest_stops) none
    (s, t, p) h).2
  rcases hmem with h' | ⟨st, hst, hc⟩
  · exact Option.noConfusion h'
  · obtain ⟨st1, st2⟩ := st
    cases hd : shortest_path_between_stops g st1 st2 with
    | none => rw [hd] at hc; exact Option.noConfusion hc
    | some p0 =>
      rw [hd] at hc
      simp only [Option.map_some] at hc
      have hc' := Option.some.inj hc
      have hst1 : st1 = s := congrArg (fun x => x.1) hc'
      have hst2 : st2 = t := congrArg (fun x => x.2.1) hc'
      have hp0 : p0 = p := congrArg (fun x => x.2.2) hc'
      obtain ⟨hso, hto⟩ := (mem_pairList _ _ _ _).mp hst
      refine ⟨hst1 ▸ hso, hst2 ▸ hto, by rw [← hst1, ← hst2, hd, hp0], ?_⟩
      intro s' hs' t' ht' p' hd'
      exact hmin (s', t') ((mem_pairList _ _ _ _).mpr ⟨hs', ht'⟩)
        (s', t', p') (by rw [hd']; rfl)

theorem best_bfs_none_iff (g : Graph)
    (origin_stops dest_stops : List String) :
    best_bfs_path g origin_stops dest_stops = none ↔
      ∀ s ∈ origin_stops, ∀ t ∈ dest_stops,
        shortest_path_between_stops g s t = none := by
  unfold best_bfs_path
  rw [bestBy_eq_none]
  constructor
  · rintro ⟨-, hall⟩ s hs t ht
    have := hall (s, t) ((mem_pairList _ _ _ _).mpr ⟨hs, ht⟩)
    cases hd : shortest_path_between_stops g s t with
    | none => rfl
    | some p => rw [hd] at this; simp at this
  · intro hall
    refine ⟨rfl, fun st hst => ?_⟩
    obtain ⟨a, b⟩ := st
    obtain ⟨hs, ht⟩ := (mem_pairList _ _ _ _).mp hst
    rw [hall a hs b ht]
    rfl

/-! ## Branch equations of `plan_building_to_building` -/

theorem plan_eq_o_none (sim : String → String → Rat) (L : Loader)
    (o d : String) (h : resolve_place sim L o = none) :
    plan_building_to_building sim L o d = .planError (msgNotFound o) := by
  simp [plan_building_to_building, h]

theorem plan_eq_d_none (sim : String → String → Rat) (L : Loader)
    (o d : String) (ob : Building) (os : List String)
    (h1 : resolve_place sim L o = some (ob, os))
    (h2 : resolve_place sim L d = none) :
    plan_building_to_building sim L o d = .planError (msgNotFound d) := by
  simp [plan_building_to_building, h1, h2]

theorem plan_eq_o_empty (sim : String → String → Rat) (L : Loader)
    (o d : String) (ob db : Building) (ds : List String)
    (h1 : resolve_place sim L o = some (ob, []))
    (h2 : resolve_place sim L d = some (db, ds)) :
    plan_building_to_building sim L o d = .planError (msgNoStops ob.name) := by
  simp [plan_building_to_building, h1, h2]

theorem plan_eq_d_empty (sim : String → String → Rat) (L : Loader)
    (o d : String) (ob db : Building) (os : List String)
    (h1 : resolve_place sim L o = some (ob, os)) (hos : os ≠ [])
    (h2 : resolve_place sim L d = some (db, [])) :
    plan_building_to_building sim L o d = .planError (msgNoStops db.name) := by
  simp [plan_building_to_building, h1, h2, hos]

theorem plan_eq_direct (sim : String → String → Rat) (L : Loader)
    (o d : String) (ob db : Building) (os ds : List String)
    (s t rid : String) (p : List String)
    (h1 : resolve_place sim L o = some (ob, os)) (hos : os ≠ [])
    (h2 : resolve_place sim L d = some (db, ds)) (hds : ds ≠ [])
    (hdir : bestDirect L.routes os ds = some (s, t, rid, p)) :
    plan_building_to_building sim L o d =
      .busRoute ob db s t p [⟨some rid, p.headD "", p.getLastD "", p⟩] := by
  simp [plan_building_to_building, h1, h2, hos, hds, hdir]

theorem plan_eq_bfs (sim : String → String → Rat) (L : Loader)
    (o d : String) (ob db : Building) (os ds : List String)
    (s t : String) (p : List String)
    (h1 : resolve_place sim L o = some (ob, os)) (hos : os ≠ [])
    (h2 : resolve_place sim L d = some (db, ds)) (hds : ds ≠ [])
    (hdir : bestDirect L.routes os ds = none)
    (hbfs : best_bfs_path L.stop_graph os ds = some (s, t, p)) :
    plan_building_to_building sim L o d =
      .busRoute ob db s t p (build_legs L.edge_to_routes p) := by
  simp [plan_building_to_building, h1, h2, hos, hds, hdir, hbfs]

theorem plan_eq_nopath (sim : String → String → Rat) (L : Loader)
    (o d : String) (ob db : Building) (os ds : List String)
    (h1 : resolve_place sim L o = some (ob, os)) (hos : os ≠ [])
    (h2 : resolve_place sim L d = some (db, ds)) (hds : ds ≠ [])
    (hdir : bestDirect L.routes os ds = none)
    (hbfs : best_bfs_path L.stop_graph os ds = none) :
    plan_building_to_building sim L o d =
      .planError (msgNoPath ob.name db.name) := by
  simp [plan_building_to_building, h1, h2, hos, hds, hdir, hbfs]

/-! ## Claim theorems about the planner -/

/-- C1: when both places resolve with non-empty stop sets and some route
contains both an origin stop and a destination stop, the planner returns
the single-leg direct plan built from the direct candidate with the fewest
stops; the result is exactly the direct-branch record, so the BFS fallback
is never consulted. -/
theorem C1_direct_route_priority (sim : String → String → Rat) (L : Loader)
    (o d : String) (ob db : Building) (os ds : List String)
    (ho : resolve_place sim L o = some (ob, os))
    (hd : resolve_place sim L d = some (db, ds))
    (hos : os ≠ []) (hds : ds ≠ [])
    (hcand : ∃ s ∈ os, ∃ t ∈ ds, ∃ r ∈ L.routes,
      s ∈ routeStops r ∧ t ∈ routeStops r) :
    ∃ s t rid p, bestDirect L.routes os ds = some (s, t, rid, p) ∧
      plan_building_to_building sim L o d =
        .busRoute ob db s t p [⟨some rid, p.headD "", p.getLastD "", p⟩] ∧
      (∀ s' ∈ os, ∀ t' ∈ ds, ∀ r ∈ L.routes, s' ∈ routeStops r →
        t' ∈ routeStops r →
        p.length ≤ (directSub (routeStops r) s' t').length) := by
  obtain ⟨s0, hs0, t0, ht0, r0, hr0, hsr0, htr0⟩ := hcand
  have hne : bestDirect L.routes os ds ≠ none := by
    intro hc
    have := (bestDirect_none_iff L.routes os ds).mp hc s0 hs0 t0 ht0
    exact (direct_path_none_iff L.routes s0 t0).mp this r0 hr0 ⟨hsr0, htr0⟩
  cases hbd : bestDirect L.routes os ds with
  | none => exact absurd hbd hne
  | some y =>
    obtain ⟨s, t, rid, p⟩ := y
    obtain ⟨hsmem, htmem, hdp, hmin⟩ := bestDirect_some _ _ _ _ _ _ _ hbd
    refine ⟨s, t, rid, p,
      rfl, plan_eq_direct sim L o d ob db os ds s t rid p ho hos hd hds hbd, ?_⟩
    intro s' hs' t' ht' r hr hsr htr
    cases hdp' : direct_path_between_stops L.routes s' t' with
    | none =>
      exact absurd (((direct_path_none_iff L.routes s' t').mp hdp') r hr)
        (by intro hc; exact hc ⟨hsr, htr⟩)
    | some rp =>
      obtain ⟨rid', p'⟩ := rp
      have h1 := hmin s' hs' t' ht' rid' p' hdp'
      have h2 := (direct_path_some L.routes s' t' rid' p' hdp').2 r hr hsr htr
      omega

/-- C2: the planner is total (always returns a tagged result) and returns
an error exactly when the origin does not resolve, the destination does
not resolve, either resolved place has an empty stop set, or no direct
candidate and no BFS path exists; each failure produces the corresponding
message in resolution-priority order. -/
theorem C2_error_exactly (sim : String → String → Rat) (L : Loader)
    (o d : String) :
    ((∃ m, plan_building_to_building sim L o d = .planError m) ∨
      (∃ ob db s t p legs,
        plan_building_to_building sim L o d = .busRoute ob db s t p legs)) ∧
    ((∃ m, plan_building_to_building sim L o d = .planError m) ↔
      (resolve_place sim L o = none ∨ resolve_place sim L d = none ∨
       (∃ ob, resolve_place sim L o = some (ob, [])) ∨
       (∃ db, resolve_place sim L d = some (db, [])) ∨
       (∃ ob os db ds, resolve_place sim L o = some (ob, os) ∧
         resolve_place sim L d = some (db, ds) ∧
         bestDirect L.routes os ds = none ∧
         best_bfs_path L.stop_graph os ds = none))) ∧
    (resolve_place sim L o = none →
      plan_building_to_building sim L o d = .planError (msgNotFound o)) ∧
    (∀ ob os, resolve_place sim L o = some (ob, os) →
      resolve_place sim L d = none →
      plan_building_to_building sim L o d = .planError (msgNotFound d)) ∧
    (∀ ob db ds, resolve_place sim L o = some (ob, []) →
      resolve_place sim L d = some (db, ds) →
      plan_building_to_building sim L o d = .planError (msgNoStops ob.name)) ∧
    (∀ ob os db, resolve_place sim L o = some (ob, os) → os ≠ [] →
      resolve_place sim L d = some (db, []) →
      plan_building_to_building sim L o d = .planError (msgNoStops db.name)) ∧
    (∀ ob os db ds, resolve_place sim L o = some (ob, os) → os ≠ [] →
      resolve_place sim L d = some (db, ds) → ds ≠ [] →
      bestDirect L.routes os ds = none →
      best_bfs_path L.stop_graph os ds = none →
      plan_building_to_building sim L o d =
        .planError (msgNoPath ob.name db.name)) := by
  refine ⟨?_, ⟨?_, ?_⟩, fun h => plan_eq_o_none sim L o d h,
    fun ob os h1 h2 => plan_eq_d_none sim L o d ob os h1 h2,
    fun ob db ds h1 h2 => plan_eq_o_empty sim L o d ob db ds h1 h2,
    fun ob os db h1 hos h2 => plan_eq_d_empty sim L o d ob db os h1 hos h2,
    fun ob os db ds h1 hos h2 hds h3 h4 =>
      plan_eq_nopath sim L o d ob db os ds h1 hos h2 hds h3 h4⟩
  · cases h1 : resolve_place sim L o with
    | none => exact Or.inl ⟨_, plan_eq_o_none sim L o d h1⟩
    | some pr1 =>
      obtain ⟨ob, os⟩ := pr1
      cases h2 : resolve_place sim L d with
      | none => exact Or.inl ⟨_, plan_eq_d_none sim L o d ob os h1 h2⟩
      | some pr2 =>
        obtain ⟨db, ds⟩ := pr2
        by_cases hos : os = []
        · subst hos
          exact Or.inl ⟨_, plan_eq_o_empty sim L o d ob db ds h1 h2⟩
        by_cases hds : ds = []
        · subst hds
          exact Or.inl ⟨_, plan_eq_d_empty sim L o d ob db os h1 hos h2⟩
        cases h3 : bestDirect L.routes os ds with
        | some y =>
          obtain ⟨s, t, rid, p⟩ := y
          exact Or.inr ⟨ob, db, s, t, p, _,
            plan_eq_direct sim L o d ob db os ds s t rid p h1 hos h2 hds h3⟩
        | none =>
          cases h4 : best_bfs_path L.stop_graph os ds with
          | some y =>
            obtain ⟨s, t, p⟩ := y
            exact Or.inr ⟨ob, db, s, t, p, _,
              plan_eq_bfs sim L o d ob db os ds s t p h1 hos h2 hds h3 h4⟩
          | none =>
            exact Or.inl ⟨_,
              plan_eq_nopath sim L o d ob db os ds h1 hos h2 hds h3 h4⟩
  · rintro ⟨m, hm⟩
    cases h1 : resolve_place sim L o with
    | none => exact Or.inl rfl
    | some pr1 =>
      obtain ⟨ob, os⟩ := pr1
      cases h2 : resolve_place sim L d with
      | none => exact Or.inr (Or.inl rfl)
      | some pr2 =>
        obtain ⟨db, ds⟩ := pr2
        by_cases hos : os = []
        · subst hos
          exact Or.inr (Or.inr (Or.inl ⟨ob, rfl⟩))
        by_cases hds : ds = []
        · subst hds
          exact Or.inr (Or.inr (Or.inr (Or.inl ⟨db, rfl⟩)))
        cases h3 : bestDirect L.routes os ds with
        | some y =>
          obtain ⟨s, t, rid, p⟩ := y
          rw [plan_eq_direct sim L o d ob db os ds s t rid p h1 hos h2 hds h3]
            at hm
          exact PlanResult.noConfusion hm
        | none =>
          cases h4 : best_bfs_path L.stop_graph os ds with
          | some y =>
            obtain ⟨s, t, p⟩ := y
            rw [plan_eq_bfs sim L o d ob db os ds s t p h1 hos h2 hds h3 h4]
              at hm
            exact PlanResult.noConfusion hm
          | none =>
            exact Or.inr (Or.inr (Or.inr (Or.inr
              ⟨ob, os, db, ds, rfl, rfl, h3, h4⟩)))
  · intro hdisj
    rcases hdisj with h | h | ⟨ob, h⟩ | ⟨db, h⟩ | ⟨ob, os, db, ds, h1, h2, h3, h4⟩
    · exact ⟨_, plan_eq_o_none sim L o d h⟩
    · cases h1 : resolve_place sim L o with
      | none => exact ⟨_, plan_eq_o_none sim L o d h1⟩
      | some pr1 =>
        obtain ⟨ob, os⟩ := pr1
        exact ⟨_, plan_eq_d_none sim L o d ob os h1 h⟩
    · cases h2 : resolve_place sim L d with
      | none => exact ⟨_, plan_eq_d_none sim L o d ob [] h h2⟩
      | some pr2 =>
        obtain ⟨db, ds⟩ := pr2
        exact ⟨_, plan_eq_o_empty sim L o d ob db ds h h2⟩
    · cases h1 : resolve_place sim L o with
      | none => exact ⟨_, plan_eq_o_none sim L o d h1⟩
      | some pr1 =>
        obtain ⟨ob, os⟩ := pr1
        by_cases hos : os = []
        · subst hos
          exact ⟨_, plan_eq_o_empty sim L o d ob db [] h1 h⟩
        · exact ⟨_, plan_eq_d_empty sim L o d ob db os h1 hos h⟩
    · by_cases hos : os = []
      · subst hos
        exact ⟨_, plan_eq_o_empty sim L o d ob db ds h1 h2⟩
      by_cases hds : ds = []
      · subst hds
        exact ⟨_, plan_eq_d_empty sim L o d ob db os h1 hos h2⟩
      exact ⟨_, plan_eq_nopath sim L o d ob db os ds h1 hos h2 hds h3 h4⟩

/-- C10: every `bus_route` result has a non-empty stop path starting at
the returned origin stop and ending at the returned destination stop, and
those stops belong to the resolved origin and destination stop lists. -/
theorem C10_busroute_endpoints (sim : String → String → Rat) (L : Loader)
    (o d : String) (ob db : Building) (s t : String) (p : List String)
    (legs : List Leg)
    (h : plan_building_to_building sim L o d = .busRoute ob db s t p legs) :
    p ≠ [] ∧ p.head? = some s ∧ p.getLast? = some t ∧
    ∃ os ds, resolve_place sim L o = some (ob, os) ∧
      resolve_place sim L d = some (db, ds) ∧ s ∈ os ∧ t ∈ ds := by
  cases h1 : resolve_place sim L o with
  | none =>
    rw [plan_eq_o_none sim L o d h1] at h
    exact PlanResult.noConfusion h
  | some pr1 =>
    obtain ⟨ob', os⟩ := pr1
    cases h2 : resolve_place sim L d with
    | none =>
      rw [plan_eq_d_none sim L o d ob' os h1 h2] at h
      exact PlanResult.noConfusion h
    | some pr2 =>
      obtain ⟨db', ds⟩ := pr2
      by_cases hos : os = []
      · subst hos
        rw [plan_eq_o_empty sim L o d ob' db' ds h1 h2] at h
        exact PlanResult.noConfusion h
      by_cases hds : ds = []
      · subst hds
        rw [plan_eq_d_empty sim L o d ob' db' os h1 hos h2] at h
        exact PlanResult.noConfusion h
      cases h3 : bestDirect L.routes os ds with
      | some y =>
        obtain ⟨s0, t0, rid0, p0⟩ := y
        rw [plan_eq_direct sim L o d ob' db' os ds s0 t0 rid0 p0
          h1 hos h2 hds h3] at h
        simp only [PlanResult.busRoute.injEq] at h
        obtain ⟨hob, hdb, hs0, ht0, hp0, -⟩ := h
        rw [← hob, ← hdb, ← hs0, ← ht0, ← hp0]
        obtain ⟨hsmem, htmem, hdp, -⟩ := bestDirect_some _ _ _ _ _ _ _ h3
        obtain ⟨⟨r, hr, -, hsr, htr, hpsub⟩, -⟩ :=
          direct_path_some L.routes s0 t0 rid0 p0 hdp
        obtain ⟨hhead, hlast, hne⟩ :=
          directSub_spec (routeStops r) s0 t0 hsr htr
        rw [← hpsub] at hhead hlast hne
        exact ⟨hne, hhead, hlast, os, ds, rfl, rfl, hsmem, htmem⟩
      | none =>
        cases h4 : best_bfs_path L.stop_graph os ds with
        | none =>
          rw [plan_eq_nopath sim L o d ob' db' os ds h1 hos h2 hds h3 h4] at h
          exact PlanResult.noConfusion h
        | some y =>
          obtain ⟨s0, t0, p0⟩ := y
          rw [plan_eq_bfs sim L o d ob' db' os ds s0 t0 p0
            h1 hos h2 hds h3 h4] at h
          simp only [PlanResult.busRoute.injEq] at h
          obtain ⟨hob, hdb, hs0, ht0, hp0, -⟩ := h
          rw [← hob, ← hdb, ← hs0, ← ht0, ← hp0]
          obtain ⟨hsmem, htmem, hsp, -⟩ := best_bfs_some _ _ _ _ _ _ h4
          obtain ⟨hwalk, -⟩ := shortest_path_some L.stop_graph s0 t0 p0 hsp
          refine ⟨?_, hwalk.head_eq, hwalk.last_eq, os, ds, rfl, rfl,
            hsmem, htmem⟩
          intro hc
          rw [hc] at hwalk
          exact absurd hwalk.length_pos (by simp)

theorem walk_first_edge {g : Graph} {s t : String} {w : List String}
    (hw : Walk g s t w) (hne : s ≠ t) : ∃ v, Adj g s v := by
  cases hw with
  | single => exact absurd rfl hne
  | cons hadj _ => exact ⟨_, hadj⟩

theorem walk_last_edge {g : Graph} {s t : String} {w : List String}
    (hw : Walk g s t w) (hne : s ≠ t) : ∃ x, Adj g x t := by
  induction hw with
  | single s => exact absurd rfl hne
  | @cons s v t p hadj hw ih =>
    by_cases hvt : v = t
    · exact ⟨s, hvt ▸ hadj⟩
    · exact ih hvt

theorem adj_mem_keys {g : Graph} {u v : String} (h : Adj g u v) :
    u ∈ dictKeys g :=
  mem_keys_of_mem_getD g u v h

/-- C3: a stop path returned by the BFS fallback over the built stop graph
has hop count at most that of every other walk between the same endpoint
pair, and at most that of every walk between any other pair of the
origin × destination cross-product. -/
theorem C3_bfs_optimality (sim : String → String → Rat)
    (rawBuildings : List (String × List RawBuilding))
    (rawRoutes : List RawRoute) (os ds : List String) (s t : String)
    (p : List String)
    (h : best_bfs_path (buildLoader sim rawBuildings rawRoutes).stop_graph
      os ds = some (s, t, p)) :
    (∀ w, Walk (buildLoader sim rawBuildings rawRoutes).stop_graph s t w →
      p.length - 1 ≤ w.length - 1) ∧
    (∀ s' ∈ os, ∀ t' ∈ ds,
      ∀ w, Walk (buildLoader sim rawBuildings rawRoutes).stop_graph s' t' w →
        p.length - 1 ≤ w.length - 1) := by
  have hg : (buildLoader sim rawBuildings rawRoutes).stop_graph =
      (buildGraphEdges rawRoutes).1 := rfl
  obtain ⟨hs, ht, hsp, hmin⟩ := best_bfs_some _ _ _ _ _ _ h
  obtain ⟨hwalkp, hoptp⟩ := shortest_path_some _ s t p hsp
  have hmain : ∀ s' ∈ os, ∀ t' ∈ ds,
      ∀ w, Walk (buildLoader sim rawBuildings rawRoutes).stop_graph s' t' w →
        p.length ≤ w.length := by
    intro s' hs' t' ht' w hw
    by_cases hne : s' = t'
    · subst hne
      have hone : shortest_path_between_stops
          (buildLoader sim rawBuildings rawRoutes).stop_graph s' s' =
          some [s'] := by
        simp [shortest_path_between_stops]
      have h1 := hmin s' hs' s' ht' [s'] hone
      have h2 := hw.length_pos
      simp only [List.length_singleton] at h1
      omega
    · cases hsp' : shortest_path_between_stops
          (buildLoader sim rawBuildings rawRoutes).stop_graph s' t' with
      | some p' =>
        have h1 := hmin s' hs' t' ht' p' hsp'
        have h2 := (shortest_path_some _ s' t' p' hsp').2 w hw
        omega
      | none =>
        exfalso
        obtain ⟨-, hdisj⟩ := (shortest_path_none_iff _ s' t').mp hsp'
        obtain ⟨v, hv⟩ := walk_first_edge hw hne
        obtain ⟨x, hx⟩ := walk_last_edge hw hne
        rcases hdisj with hm | hm | hm
        · exact hm (adj_mem_keys hv)
        · refine hm ?_
          rw [hg]
          exact ((buildGraphEdges_inv rawRoutes).2.2 x t'
            (by rw [← hg]; exact hx)).1
        · exact hm w hw
  refine ⟨fun w hw => ?_, fun s' hs' t' ht' w hw => ?_⟩
  · have := hoptp w hw
    omega
  · have := hmain s' hs' t' ht' w hw
    omega

/-- C7 counterexample: the claim says BFS returns no path whenever the
start stop is absent from the stop graph, but the `start == goal`
short-circuit fires first and returns the one-stop path even though the
stop is not a graph node (empty graph, stop `x`). -/
theorem C7_counterexample :
    shortest_path_between_stops ([] : Graph) "x" "x" = some ["x"] ∧
    "x" ∉ dictKeys ([] : Graph) := by
  constructor
  · rfl
  · simp [dictKeys]

/-- C7 amended: BFS returns no path iff the endpoints differ and either
endpoint is absent from the stop graph or no connecting walk exists; for
equal endpoints it returns the one-stop path regardless of membership;
and when the planner reaches the BFS fallback (both places resolved with
non-empty stop sets and no direct candidate) and every stop pair yields no
path, it fails with the no-path error. -/
theorem C7_amended :
    (∀ (g : Graph) (s t : String),
      shortest_path_between_stops g s t = none ↔
        s ≠ t ∧ (s ∉ dictKeys g ∨ t ∉ dictKeys g ∨ ∀ w, ¬ Walk g s t w)) ∧
    (∀ (g : Graph) (s : String),
      shortest_path_between_stops g s s = some [s]) ∧
    (∀ (sim : String → String → Rat) (L : Loader) (o d : String)
      (ob db : Building) (os ds : List String),
      resolve_place sim L o = some (ob, os) → os ≠ [] →
      resolve_place sim L d = some (db, ds) → ds ≠ [] →
      bestDirect L.routes os ds = none →
      (∀ s ∈ os, ∀ t ∈ ds,
        shortest_path_between_stops L.stop_graph s t = none) →
      plan_building_to_building sim L o d =
        .planError (msgNoPath ob.name db.name)) := by
  refine ⟨shortest_path_none_iff, ?_, ?_⟩
  · intro g s
    simp [shortest_path_between_stops]
  · intro sim L o d ob db os ds h1 hos h2 hds h3 hall
    exact plan_eq_nopath sim L o d ob db os ds h1 hos h2 hds h3
      ((best_bfs_none_iff L.stop_graph os ds).mpr hall)

/-! ## Leg compression (`_build_legs`) -/

/-- The consecutive-edge list of a stop path (`zip(path, path[1:])`). -/
def edgesOf (q : List String) : List (String × String) := q.zip q.tail

/-- Concatenation of the legs' stop sequences with one-stop overlap at
each boundary. -/
def joinStops : List Leg → List String
  | [] => []
  | l :: ls => l.stops ++ ls.flatMap (fun l' => l'.stops.tail)

theorem edgesOf_length (q : List String) :
    (edgesOf q).length = q.length - 1 := by
  unfold edgesOf
  rw [List.length_zip]
  cases q with
  | nil => rfl
  | cons a l => simp

theorem edgesOf_cons_cons (a b : String) (r : List String) :
    edgesOf (a :: b :: r) = (a, b) :: edgesOf (b :: r) := rfl

theorem edgesOf_take (q : List String) :
    ∀ k, edgesOf (q.take (k + 1)) = (edgesOf q).take k := by
  induction q with
  | nil => intro k; simp [edgesOf]
  | cons a q' ih =>
    intro k
    cases q' with
    | nil =>
      cases k with
      | zero => rfl
      | succ k => rfl
    | cons b q'' =>
      cases k with
      | zero => rfl
      | succ k =>
        have h1 : (a :: b :: q'').take (k + 1 + 1) =
            a :: (b :: q'').take (k + 1) := rfl
        rw [h1, edgesOf_cons_cons a b q'']
        have h2 : edgesOf (a :: (b :: q'').take (k + 1)) =
            (a, b) :: edgesOf ((b :: q'').take (k + 1)) := by
          cases k with
          | zero => rfl
          | succ m => rfl
        rw [h2, ih k]
        rfl

theorem edgesOf_drop (q : List String) :
    ∀ k, edgesOf (q.drop k) = (edgesOf q).drop k := by
  induction q with
  | nil => intro k; simp [edgesOf]
  | cons a q' ih =>
    intro k
    cases k with
    | zero => rfl
    | succ k =>
      cases q' with
      | nil => simp [edgesOf]
      | cons b q'' =>
        have h1 : (a :: b :: q'').drop (k + 1) = (b :: q'').drop k := rfl
        rw [h1, ih k, edgesOf_cons_cons]
        rfl

theorem head?_take {α : Type} (l : List α) (k : Nat) (hk : 1 ≤ k) :
    (l.take k).head? = l.head? := by
  rw [List.head?_eq_getElem? _, List.head?_eq_getElem? l,
    List.getElem?_take, if_pos (by omega : 0 < k)]

theorem head?_drop {α : Type} (l : List α) (k : Nat) :
    (l.drop k).head? = l[k]? := by
  rw [List.head?_eq_getElem? _, List.getElem?_drop]
  simp

theorem legSpan_nil (er : List ((String × String) × List String))
    (route : Option String) : legSpan er route [] = (route, 0) := rfl

theorem legSpan_cons_some_mem (er : List ((String × String) × List String))
    (r : String) (e : String × String) (rest : List (String × String))
    (h : r ∈ edgeRoutesOf er e) :
    legSpan er (some r) (e :: rest) =
      ((legSpan er (some r) rest).1, (legSpan er (some r) rest).2 + 1) := by
  simp [legSpan, h]

theorem legSpan_cons_some_not (er : List ((String × String) × List String))
    (r : String) (e : String × String) (rest : List (String × String))
    (h : r ∉ edgeRoutesOf er e) :
    legSpan er (some r) (e :: rest) = (some r, 0) := by
  simp [legSpan, h]

theorem legSpan_cons_none (er : List ((String × String) × List String))
    (e : String × String) (rest : List (String × String)) :
    legSpan er none (e :: rest) =
      ((legSpan er (if edgeRoutesOf er e ≠ []
          then some (edgeRoutesOf er e).head! else none) rest).1,
       (legSpan er (if edgeRoutesOf er e ≠ []
          then some (edgeRoutesOf er e).head! else none) rest).2 + 1) := by
  simp [legSpan]

theorem legSpan_le (er : List ((String × String) × List String)) :
    ∀ (edges : List (String × String)) (route : Option String),
      (legSpan er route edges).2 ≤ edges.length := by
  intro edges
  induction edges with
  | nil => intro route; simp [legSpan_nil]
  | cons e rest ih =>
    intro route
    cases route with
    | some r =>
      by_cases hr : r ∈ edgeRoutesOf er e
      · rw [legSpan_cons_some_mem er r e rest hr]
        have := ih (some r)
        simp only [List.length_cons]
        omega
      · rw [legSpan_cons_some_not er r e rest hr]
        simp
    | none =>
      rw [legSpan_cons_none]
      have := ih (if edgeRoutesOf er e ≠ []
        then some (edgeRoutesOf er e).head! else none)
      simp only [List.length_cons]
      omega

theorem legSpan_some (er : List ((String × String) × List String)) :
    ∀ (edges : List (String × String)) (r : String),
      (legSpan er (some r) edges).1 = some r := by
  intro edges
  induction edges with
  | nil => intro r; rfl
  | cons e rest ih =>
    intro r
    by_cases hr : r ∈ edgeRoutesOf er e
    · rw [legSpan_cons_some_mem er r e rest hr]
      exact ih r
    · rw [legSpan_cons_some_not er r e rest hr]

theorem legSpan_none_inv (er : List ((String × String) × List String)) :
    ∀ (edges : List (String × String)) (route : Option String),
      (legSpan er route edges).1 = none →
      route = none ∧ (legSpan er route edges).2 = edges.length ∧
      ∀ e ∈ edges, edgeRoutesOf er e = [] := by
  intro edges
  induction edges with
  | nil =>
    intro route h
    exact ⟨h, rfl, fun e he => absurd he (List.not_mem_nil e)⟩
  | cons e rest ih =>
    intro route h
    cases route with
    | some r =>
      exfalso
      by_cases hr : r ∈ edgeRoutesOf er e
      · rw [legSpan_cons_some_mem er r e rest hr] at h
        simp only at h
        rw [legSpan_some er rest r] at h
        exact Option.noConfusion h
      · rw [legSpan_cons_some_not er r e rest hr] at h
        exact Option.noConfusion h
    | none =>
      rw [legSpan_cons_none] at h ⊢
      by_cases hemp : edgeRoutesOf er e = []
      · rw [if_neg (by simp [hemp])] at h ⊢
        simp only at h
        obtain ⟨-, hn, hall⟩ := ih none h
        refine ⟨rfl, by simp [hn], ?_⟩
        intro x hx
        rcases List.mem_cons.mp hx with rfl | hx'
        · exact hemp
        · exact hall x hx'
      · exfalso
        rw [if_pos (by simp [hemp])] at h
        simp only at h
        rw [legSpan_some er rest _] at h
        exact Option.noConfusion h

theorem legSpan_break (er : List ((String × String) × List String)) :
    ∀ (edges : List (String × String)) (route : Option String),
      (legSpan er route edges).2 < edges.length →
      ∃ r, (legSpan er route edges).1 = some r ∧
        ∃ e, edges[(legSpan er route edges).2]? = some e ∧
          r ∉ edgeRoutesOf er e := by
  intro edges
  induction edges with
  | nil => intro route h; simp [legSpan_nil] at h
  | cons e rest ih =>
    intro route h
    cases route with
    | some r =>
      by_cases hr : r ∈ edgeRoutesOf er e
      · rw [legSpan_cons_some_mem er r e rest hr] at h ⊢
        simp only [List.length_cons] at h
        have hlt : (legSpan er (some r) rest).2 < rest.length := by omega
        obtain ⟨r2, hr2, e2, he2, hne2⟩ := ih (some r) hlt
        exact ⟨r2, hr2, e2, by simpa using he2, hne2⟩
      · rw [legSpan_cons_some_not er r e rest hr]
        exact ⟨r, rfl, e, by simp, hr⟩
    | none =>
      rw [legSpan_cons_none] at h ⊢
      simp only [List.length_cons] at h
      have hlt : (legSpan er (if edgeRoutesOf er e ≠ []
          then some (edgeRoutesOf er e).head! else none) rest).2 <
          rest.length := by omega
      obtain ⟨r2, hr2, e2, he2, hne2⟩ := ih _ hlt
      exact ⟨r2, hr2, e2, by simpa using he2, hne2⟩

theorem build_legs_cons (er : List ((String × String) × List String))
    (a b : String) (rest : List String) :
    build_legs er (a :: b :: rest) =
      (let rn := legSpan er
          (if edgeRoutesOf er (a, b) ≠ []
            then some (edgeRoutesOf er (a, b)).head! else none)
          ((b :: rest).zip rest)
       let seg := (a :: b :: rest).take (rn.2 + 2)
       (⟨rn.1, seg.headD "", seg.getLastD "", seg⟩ : Leg) ::
         build_legs er ((a :: b :: rest).drop (rn.2 + 1))) := by
  rw [build_legs]

/-- The initial leg route chosen from the first edge of a leg
(`possible_routes[0] if possible_routes else None`). -/
def initRoute (er : List ((String × String) × List String))
    (e : String × String) : Option String :=
  if edgeRoutesOf er e ≠ [] then some (edgeRoutesOf er e).head! else none

theorem initRoute_none (er : List ((String × String) × List String))
    (e : String × String) (h : initRoute er e = none) :
    edgeRoutesOf er e = [] := by
  unfold initRoute at h
  by_cases hemp : edgeRoutesOf er e = []
  · exact hemp
  · rw [if_pos (by simp [hemp])] at h
    exact Option.noConfusion h

theorem build_legs_cons2 (er : List ((String × String) × List String))
    (a b : String) (rest : List String) :
    build_legs er (a :: b :: rest) =
      ⟨(legSpan er (initRoute er (a, b)) (edgesOf (b :: rest))).1,
       ((a :: b :: rest).take
         ((legSpan er (initRoute er (a, b)) (edgesOf (b :: rest))).2 + 2)).headD "",
       ((a :: b :: rest).take
         ((legSpan er (initRoute er (a, b)) (edgesOf (b :: rest))).2 + 2)).getLastD "",
       ((a :: b :: rest).take
         ((legSpan er (initRoute er (a, b)) (edgesOf (b :: rest))).2 + 2))⟩ ::
      build_legs er ((a :: b :: rest).drop
        ((legSpan er (initRoute er (a, b)) (edgesOf (b :: rest))).2 + 1)) := by
  rw [build_legs_cons]
  rfl

theorem build_legs_single (er : List ((String × String) × List String))
    (p : List String) (h : p.length = 1) : build_legs er p = [] := by
  obtain ⟨x, hx⟩ := List.length_eq_one.mp h
  rw [hx, build_legs]

theorem build_legs_spec (er : List ((String × String) × List String)) :
    ∀ (n : Nat) (p : List String), p.length = n → 2 ≤ p.length →
      joinStops (build_legs er p) = p ∧
      (build_legs er p).flatMap (fun l => edgesOf l.stops) = edgesOf p ∧
      (∃ l₀ ls, build_legs er p = l₀ :: ls ∧
        (edgesOf l₀.stops).head? = (edgesOf p).head?) ∧
      (∀ l ∈ build_legs er p, l.route_id = none →
        ∀ e ∈ edgesOf l.stops, edgeRoutesOf er e = []) ∧
      List.Chain' (fun l l' => ∀ r, l.route_id = some r →
        ∃ e, (edgesOf l'.stops).head? = some e ∧ r ∉ edgeRoutesOf er e)
        (build_legs er p) := by
  intro n
  induction n using Nat.strong_induction_on with
  | _ n ih =>
    intro p hlen h2
    cases p with
    | nil => simp at h2
    | cons a q =>
      cases q with
      | nil => simp at h2
      | cons b rest =>
        rcases hspan : legSpan er (initRoute er (a, b)) (edgesOf (b :: rest))
          with ⟨rt, k⟩
        have hbl : build_legs er (a :: b :: rest) =
            (⟨rt, ((a :: b :: rest).take (k + 2)).headD "",
              ((a :: b :: rest).take (k + 2)).getLastD "",
              (a :: b :: rest).take (k + 2)⟩ : Leg) ::
            build_legs er ((a :: b :: rest).drop (k + 1)) := by
          rw [build_legs_cons2, hspan]
        have hkle : k ≤ (edgesOf (b :: rest)).length := by
          have := legSpan_le er (edgesOf (b :: rest)) (initRoute er (a, b))
          rw [hspan] at this
          exact this
        have heRlen : (edgesOf (b :: rest)).length = rest.length := by
          rw [edgesOf_length]
          simp
        have hplen : (a :: b :: rest).length = rest.length + 2 := by simp
        have hE : edgesOf (a :: b :: rest) = (a, b) :: edgesOf (b :: rest) :=
          edgesOf_cons_cons a b rest
        have hElen : (edgesOf (a :: b :: rest)).length = rest.length + 1 := by
          rw [hE, List.length_cons, heRlen]
        have hseg_edges : edgesOf ((a :: b :: rest).take (k + 2)) =
            (edgesOf (a :: b :: rest)).take (k + 1) :=
          edgesOf_take (a :: b :: rest) (k + 1)
        have hp'_edges : edgesOf ((a :: b :: rest).drop (k + 1)) =
            (edgesOf (a :: b :: rest)).drop (k + 1) :=
          edgesOf_drop (a :: b :: rest) (k + 1)
        have hp'_len : ((a :: b :: rest).drop (k + 1)).length =
            rest.length + 1 - k := by
          rw [List.length_drop, hplen]
          omega
        by_cases hbig : 2 ≤ ((a :: b :: rest).drop (k + 1)).length
        · -- more than one leg: apply the induction hypothesis to the rest
          have hlt : ((a :: b :: rest).drop (k + 1)).length < n := by
            rw [← hlen, hp'_len, hplen]
            omega
          obtain ⟨ihj, ihe, ⟨l₀', ls', hl', hhead'⟩, iha, ihc⟩ :=
            ih _ hlt ((a :: b :: rest).drop (k + 1)) rfl hbig
          have hkrest : k < rest.length := by
            rw [hp'_len] at hbig
            omega
          have hEp'ne : edgesOf ((a :: b :: rest).drop (k + 1)) ≠ [] := by
            intro hc
            have := congrArg List.length hc
            rw [edgesOf_length, hp'_len] at this
            simp at this
            omega
          obtain ⟨e0, he0⟩ : ∃ e0,
              (edgesOf ((a :: b :: rest).drop (k + 1))).head? = some e0 := by
            cases hq : edgesOf ((a :: b :: rest).drop (k + 1)) with
            | nil => exact absurd hq hEp'ne
            | cons x xs => exact ⟨x, rfl⟩
          have hl₀ne : l₀'.stops ≠ [] := by
            intro hc
            rw [hc] at hhead'
            rw [he0] at hhead'
            exact Option.noConfusion hhead'
          obtain ⟨x, xs, hxxs⟩ := List.exists_cons_of_ne_nil hl₀ne
          have he0k : (edgesOf ((a :: b :: rest).drop (k + 1))).head? =
              (edgesOf (b :: rest))[k]? := by
            rw [hp'_edges, head?_drop, hE, List.getElem?_cons_succ]
          rw [hbl, hl']
          have hptail : ((a :: b :: rest).drop (k + 1)).tail =
              (a :: b :: rest).drop (k + 2) := by
            rw [List.tail_drop]
          refine ⟨?_, ?_, ?_, ?_, ?_⟩
          · -- glue
            have hihj := ihj
            rw [hl'] at hihj
            unfold joinStops at hihj ⊢
            simp only [List.flatMap_cons] at hihj ⊢
            rw [hxxs] at hihj ⊢
            have htl : xs ++ ls'.flatMap (fun l' => l'.stops.tail) =
                ((a :: b :: rest).drop (k + 1)).tail := by
              rw [← hihj]
              rfl
            rw [List.tail_cons]
            rw [htl, hptail]
            have := List.take_append_drop (k + 2) (a :: b :: rest)
            exact this
          · -- edge partition
            have hihe := ihe
            rw [hl'] at hihe
            simp only [List.flatMap_cons] at hihe ⊢
            rw [hseg_edges, hihe, hp'_edges]
            exact List.take_append_drop (k + 1) (edgesOf (a :: b :: rest))
          · refine ⟨_, _, rfl, ?_⟩
            simp only
            rw [hseg_edges, head?_take _ _ (by omega)]
          · intro l hl hlnone e he
            rcases List.mem_cons.mp hl with rfl | hmem
            · exfalso
              simp only at hlnone
              subst hlnone
              have := legSpan_none_inv er (edgesOf (b :: rest))
                (initRoute er (a, b)) (by rw [hspan])
              obtain ⟨-, hkfull, -⟩ := this
              rw [hspan] at hkfull
              simp only at hkfull
              rw [heRlen] at hkfull
              omega
            · exact iha l (by rw [hl']; exact hmem) hlnone e he
          · rw [List.chain'_cons]
            refine ⟨?_, by rw [← hl']; exact ihc⟩
            intro r hr
            simp only at hr
            subst hr
            have hbreak := legSpan_break er (edgesOf (b :: rest))
              (initRoute er (a, b)) (by rw [hspan]; simp only; omega)
            rw [hspan] at hbreak
            simp only at hbreak
            obtain ⟨r2, hr2, e2, he2, hne2⟩ := hbreak
            have hrr : r2 = r := by
              injection hr2 with h0
              exact h0.symm
            subst hrr
            refine ⟨e2, ?_, hne2⟩
            rw [hhead', he0k]
            exact he2
        · -- single leg: the span consumed the whole path
          have hp1 : ((a :: b :: rest).drop (k + 1)).length = 1 := by
            rw [hp'_len]
            rw [hp'_len] at hbig
            omega
          have hkfull : k = rest.length := by
            rw [hp'_len] at hp1
            omega
          have hsegfull : (a :: b :: rest).take (k + 2) = a :: b :: rest := by
            apply List.take_of_length_le
            rw [hplen]
            omega
          have htailnil : build_legs er ((a :: b :: rest).drop (k + 1)) = [] :=
            build_legs_single er _ hp1
          rw [hbl, htailnil]
          have hedgefull : (edgesOf (a :: b :: rest)).take (k + 1) =
              edgesOf (a :: b :: rest) := by
            apply List.take_of_length_le
            rw [hElen]
            omega
          refine ⟨?_, ?_, ?_, ?_, ?_⟩
          · unfold joinStops
            simp only [List.flatMap_nil, List.append_nil]
            rw [hsegfull]
          · simp only [List.flatMap_cons, List.flatMap_nil, List.append_nil]
            rw [hseg_edges, hedgefull]
          · refine ⟨_, _, rfl, ?_⟩
            simp only
            rw [hseg_edges, head?_take _ _ (by omega)]
          · intro l hl hlnone e he
            rcases List.mem_cons.mp hl with rfl | hmem
            · simp only at hlnone
              subst hlnone
              have := legSpan_none_inv er (edgesOf (b :: rest))
                (initRoute er (a, b)) (by rw [hspan])
              obtain ⟨hinit, -, hall⟩ := this
              simp only at he
              rw [hseg_edges, hedgefull, hE] at he
              rcases List.mem_cons.mp he with rfl | hmem'
              · exact initRoute_none er _ hinit
              · exact hall e hmem'
            · exact absurd hmem (List.not_mem_nil l)
          · exact List.chain'_singleton _

/-- Fuel-indexed structural twin of `build_legs`, used to evaluate the
leg compression on concrete inputs (`build_legs_fuel_eq` shows any fuel of
at least the path length computes `build_legs`). -/
def build_legs_fuel (er : List ((String × String) × List String)) :
    Nat → List String → List Leg
  | _, [] => []
  | _, [_] => []
  | 0, _ :: _ :: _ => []
  | fuel + 1, a :: b :: rest =>
    ⟨(legSpan er (initRoute er (a, b)) (edgesOf (b :: rest))).1,
     ((a :: b :: rest).take
       ((legSpan er (initRoute er (a, b)) (edgesOf (b :: rest))).2 + 2)).headD "",
     ((a :: b :: rest).take
       ((legSpan er (initRoute er (a, b)) (edgesOf (b :: rest))).2 + 2)).getLastD "",
     ((a :: b :: rest).take
       ((legSpan er (initRoute er (a, b)) (edgesOf (b :: rest))).2 + 2))⟩ ::
    build_legs_fuel er fuel ((a :: b :: rest).drop
      ((legSpan er (initRoute er (a, b)) (edgesOf (b :: rest))).2 + 1))

theorem build_legs_fuel_eq (er : List ((String × String) × List String)) :
    ∀ (n fuel : Nat) (p : List String), p.length = n → p.length ≤ fuel →
      build_legs_fuel er fuel p = build_legs er p := by
  intro n
  induction n using Nat.strong_induction_on with
  | _ n ih =>
    intro fuel p hlen hfuel
    cases p with
    | nil =>
      rw [build_legs]
      cases fuel <;> rfl
    | cons a q =>
      cases q with
      | nil =>
        rw [build_legs]
        cases fuel <;> rfl
      | cons b rest =>
        have h2 : 2 ≤ (a :: b :: rest).length := by simp
        obtain ⟨f, rfl⟩ : ∃ f, fuel = f + 1 := by
          refine ⟨fuel - 1, ?_⟩
          simp only [List.length_cons] at hfuel
          omega
        rw [build_legs_cons2]
        show _ :: build_legs_fuel er f _ = _
        congr 1
        have hkle := legSpan_le er (edgesOf (b :: rest))
          (initRoute er (a, b))
        have hdroplen : ((a :: b :: rest).drop
            ((legSpan er (initRoute er (a, b)) (edgesOf (b :: rest))).2 + 1)).length
            < n := by
          rw [← hlen, List.length_drop]
          simp only [List.length_cons]
          omega
        refine ih _ hdroplen f _ rfl ?_
        rw [List.length_drop]
        simp only [List.length_cons] at hfuel ⊢
        omega

/-- C4: for a stop path with at least two stops the legs partition the
path's edges: gluing the legs' stop sequences (overlapping one stop at
each boundary) reconstructs the path, and the concatenation of the legs'
edge lists is exactly the path's edge list (every edge in exactly one leg,
in order). -/
theorem C4_leg_coverage (er : List ((String × String) × List String))
    (p : List String) (h : 2 ≤ p.length) :
    joinStops (build_legs er p) = p ∧
    (build_legs er p).flatMap (fun l => edgesOf l.stops) = edgesOf p := by
  obtain ⟨h1, h2, -, -, -⟩ := build_legs_spec er p.length p rfl h
  exact ⟨h1, h2⟩

/-- Witness for C4 on a concrete two-stop path. -/
theorem C4_leg_coverage_witness :
    joinStops (build_legs [] ["a", "b"]) = ["a", "b"] ∧
    (build_legs [] ["a", "b"]).flatMap (fun l => edgesOf l.stops) =
      edgesOf ["a", "b"] :=
  C4_leg_coverage [] ["a", "b"] (by decide)

/-- Formalization of the claim's notion of a leg sequence covering a stop
path: the glued stop sequences reconstruct the path, the legs' edges
partition the path's edges, and each leg's chosen route id covers every
edge of that leg. -/
def LegsCover (er : List ((String × String) × List String))
    (p : List String) (legs : List Leg) : Prop :=
  joinStops legs = p ∧
  legs.flatMap (fun l => edgesOf l.stops) = edgesOf p ∧
  ∀ l ∈ legs, ∀ r, l.route_id = some r →
    ∀ e ∈ edgesOf l.stops, r ∈ edgeRoutesOf er e

/-- C5 counterexample.  On the path `x → y → z` where the first edge is
served by routes `B, A` (in stored order) and the second only by `A`, the
greedy compression adopts `B` and emits two legs although the single leg
riding `A` covers the whole path — so the produced sequence is not
minimal.  And on `p → q → r → s` with the middle edge served by no route,
the compression emits two consecutive legs that both carry route `R` — so
consecutive legs need not have distinct effective route ids. -/
theorem C5_counterexample :
    (build_legs [(("x", "y"), ["B", "A"]), (("y", "z"), ["A"])]
      ["x", "y", "z"]).length = 2 ∧
    LegsCover [(("x", "y"), ["B", "A"]), (("y", "z"), ["A"])] ["x", "y", "z"]
      [⟨some "A", "x", "z", ["x", "y", "z"]⟩] ∧
    ([(⟨some "A", "x", "z", ["x", "y", "z"]⟩ : Leg)] : List Leg).length <
      (build_legs [(("x", "y"), ["B", "A"]), (("y", "z"), ["A"])]
        ["x", "y", "z"]).length ∧
    (build_legs [(("p", "q"), ["R"]), (("r", "s"), ["R"])]
      ["p", "q", "r", "s"]).map Leg.route_id = [some "R", some "R"] := by
  have h1 : build_legs [(("x", "y"), ["B", "A"]), (("y", "z"), ["A"])]
      ["x", "y", "z"] =
      [⟨some "B", "x", "y", ["x", "y"]⟩, ⟨some "A", "y", "z", ["y", "z"]⟩] := by
    rw [← build_legs_fuel_eq [(("x", "y"), ["B", "A"]), (("y", "z"), ["A"])]
      3 3 ["x", "y", "z"] (by decide) (by decide)]
    decide
  have h2 : (build_legs [(("p", "q"), ["R"]), (("r", "s"), ["R"])]
      ["p", "q", "r", "s"]).map Leg.route_id = [some "R", some "R"] := by
    rw [← build_legs_fuel_eq [(("p", "q"), ["R"]), (("r", "s"), ["R"])]
      4 4 ["p", "q", "r", "s"] (by decide) (by decide)]
    decide
  rw [h1]
  refine ⟨rfl, ?_, by decide, h2⟩
  unfold LegsCover
  decide

/-- C5 amended: leg compression guarantees that a leg carries an unset
route id only when no route covers any of its edges, and that each leg's
chosen route fails to cover the first edge of the following leg (the
greedy break condition); the sequence is not minimal in general and
consecutive legs may repeat an effective route id (see the
counterexample). -/
theorem C5_amended (er : List ((String × String) × List String))
    (p : List String) :
    (∀ l ∈ build_legs er p, l.route_id = none →
      ∀ e ∈ edgesOf l.stops, edgeRoutesOf er e = []) ∧
    List.Chain' (fun l l' => ∀ r, l.route_id = some r →
      ∃ e, (edgesOf l'.stops).head? = some e ∧ r ∉ edgeRoutesOf er e)
      (build_legs er p) := by
  by_cases h : 2 ≤ p.length
  · obtain ⟨-, -, -, h4, h5⟩ := build_legs_spec er p.length p rfl h
    exact ⟨h4, h5⟩
  · have hnil : build_legs er p = [] := by
      cases p with
      | nil => rw [build_legs]
      | cons x q =>
        cases q with
        | nil => rw [build_legs]
        | cons y r => exact absurd (by simp) h
    rw [hnil]
    exact ⟨fun l hl => absurd hl (List.not_mem_nil l), List.chain'_nil⟩

/-! ## Name-resolution lemmas -/

theorem mem_dedupSeen (x : String) :
    ∀ (l seen : List String), x ∈ dedupSeen seen l ↔ x ∈ l ∧ x ∉ seen := by
  intro l
  induction l with
  | nil => intro seen; simp [dedupSeen]
  | cons a l ih =>
    intro seen
    by_cases ha : seen.contains a
    · rw [dedupSeen, if_pos ha, ih seen]
      constructor
      · rintro ⟨h1, h2⟩
        exact ⟨List.mem_cons_of_mem a h1, h2⟩
      · rintro ⟨h1, h2⟩
        rcases List.mem_cons.mp h1 with rfl | h1'
        · exact absurd ((contains_true_iff seen x).mp ha) h2
        · exact ⟨h1', h2⟩
    · rw [dedupSeen, if_neg ha]
      constructor
      · intro h
        rcases List.mem_cons.mp h with rfl | h'
        · refine ⟨List.mem_cons_self _ _, ?_⟩
          intro hc
          exact ha ((contains_true_iff seen x).mpr hc)
        · obtain ⟨h1, h2⟩ := (ih (seen ++ [a])).mp h'
          refine ⟨List.mem_cons_of_mem a h1, fun hc => h2 (List.mem_append_left _ hc)⟩
      · rintro ⟨h1, h2⟩
        rcases List.mem_cons.mp h1 with rfl | h1'
        · exact List.mem_cons_self _ _
        · by_cases hxa : x = a
          · rw [hxa]
            exact List.mem_cons_self _ _
          · refine List.mem_cons_of_mem a ((ih (seen ++ [a])).mpr ⟨h1', ?_⟩)
            intro hc
            rcases List.mem_append.mp hc with h' | h'
            · exact h2 h'
            · exact hxa (List.mem_singleton.mp h')

theorem mem_insertSorted (x y : String) : ∀ (l : List String),
    (y ∈ insertSorted x l ↔ y = x ∨ y ∈ l)
  | [] => by simp [insertSorted]
  | a :: as => by
    unfold insertSorted
    split
    · simp [List.mem_cons]
    · rw [List.mem_cons, mem_insertSorted x y as]
      rw [List.mem_cons]
      tauto

theorem mem_sortStrings (y : String) (l : List String) :
    y ∈ sortStrings l ↔ y ∈ l := by
  induction l with
  | nil => simp [sortStrings]
  | cons a as ih =>
    unfold sortStrings at ih ⊢
    rw [List.foldr_cons, mem_insertSorted, ih, List.mem_cons]

theorem mem_sortDedup (x : String) (l : List String) :
    x ∈ sortDedup l ↔ x ∈ l := by
  unfold sortDedup
  rw [mem_sortStrings, mem_dedupSeen]
  simp

theorem mem_collectStopNames (routes : List RawRoute) (x : String) :
    x ∈ collectStopNames routes ↔
      ∃ r ∈ routes, x ∈ routeStops r ∧ x ≠ "" := by
  unfold collectStopNames
  rw [List.mem_flatMap]
  constructor
  · rintro ⟨r, hr, hx⟩
    obtain ⟨h1, h2⟩ := List.mem_filter.mp hx
    exact ⟨r, hr, h1, by simpa using h2⟩
  · rintro ⟨r, hr, h1, h2⟩
    exact ⟨r, hr, List.mem_filter.mpr ⟨h1, by simpa using h2⟩⟩

theorem mem_route_stop_names (sim : String → String → Rat)
    (rawBuildings : List (String × List RawBuilding))
    (rawRoutes : List RawRoute) (x : String) :
    x ∈ (buildLoader sim rawBuildings rawRoutes).route_stop_names ↔
      ∃ r ∈ rawRoutes, x ∈ routeStops r ∧ x ≠ "" := by
  have hrw : (buildLoader sim rawBuildings rawRoutes).route_stop_names =
      sortDedup (collectStopNames rawRoutes) := rfl
  rw [hrw, mem_sortDedup, mem_collectStopNames]

theorem gcmGo_mem (sim : String → String → Rat) (word : String)
    (cutoff : Rat) :
    ∀ (l : List String) (best : Option (String × Rat)) (y : String × Rat),
      gcmGo sim word cutoff best l = some y →
      best = some y ∨ (y.1 ∈ l ∧ cutoff ≤ sim word y.1) := by
  intro l
  induction l with
  | nil => intro best y h; exact Or.inl h
  | cons c cs ih =>
    intro best y h
    simp only [gcmGo] at h
    by_cases hc : cutoff ≤ sim word c
    · rw [if_pos hc] at h
      cases best with
      | none =>
        rcases ih (some (c, sim word c)) y h with h' | ⟨h1, h2⟩
        · have := Option.some.inj h'
          refine Or.inr ⟨?_, ?_⟩
          · rw [← this]
            exact List.mem_cons_self _ _
          · rw [← this]
            exact hc
        · exact Or.inr ⟨List.mem_cons_of_mem c h1, h2⟩
      | some br =>
        obtain ⟨b, rb⟩ := br
        have h : (if rb < sim word c then
            gcmGo sim word cutoff (some (c, sim word c)) cs
          else gcmGo sim word cutoff (some (b, rb)) cs) = some y := h
        by_cases hlt : rb < sim word c
        · rw [if_pos hlt] at h
          rcases ih (some (c, sim word c)) y h with h' | ⟨h1, h2⟩
          · have := Option.some.inj h'
            refine Or.inr ⟨?_, ?_⟩
            · rw [← this]
              exact List.mem_cons_self _ _
            · rw [← this]
              exact hc
          · exact Or.inr ⟨List.mem_cons_of_mem c h1, h2⟩
        · rw [if_neg hlt] at h
          rcases ih (some (b, rb)) y h with h' | ⟨h1, h2⟩
          · exact Or.inl h'
          · exact Or.inr ⟨List.mem_cons_of_mem c h1, h2⟩
    · rw [if_neg hc] at h
      rcases ih best y h with h' | ⟨h1, h2⟩
      · exact Or.inl h'
      · exact Or.inr ⟨List.mem_cons_of_mem c h1, h2⟩

theorem gcmGo_skip (sim : String → String → Rat) (word : String)
    (cutoff : Rat) :
    ∀ (l : List String) (best : Option (String × Rat)),
      (∀ c ∈ l, sim word c < cutoff) →
      gcmGo sim word cutoff best l = best := by
  intro l
  induction l with
  | nil => intro best _; rfl
  | cons c cs ih =>
    intro best hall
    have hc : ¬ cutoff ≤ sim word c :=
      not_le.mpr (hall c (List.mem_cons_self _ _))
    simp only [gcmGo]
    rw [if_neg hc]
    exact ih best (fun x hx => hall x (List.mem_cons_of_mem c hx))

theorem getCloseMatch_mem (sim : String → String → Rat) (word : String)
    (cutoff : Rat) (l : List String) (m : String)
    (h : getCloseMatch sim word cutoff l = some m) :
    m ∈ l ∧ cutoff ≤ sim word m := by
  unfold getCloseMatch at h
  cases hg : gcmGo sim word cutoff none l with
  | none => rw [hg] at h; exact Option.noConfusion h
  | some y =>
    rw [hg] at h
    have hm : y.1 = m := Option.some.inj h
    rcases gcmGo_mem sim word cutoff l none y hg with h' | ⟨h1, h2⟩
    · exact Option.noConfusion h'
    · exact ⟨hm ▸ h1, hm ▸ h2⟩

theorem getCloseMatch_none_of (sim : String → String → Rat) (word : String)
    (cutoff : Rat) (l : List String)
    (hall : ∀ c ∈ l, sim word c < cutoff) :
    getCloseMatch sim word cutoff l = none := by
  unfold getCloseMatch
  rw [gcmGo_skip sim word cutoff l none hall]
  rfl

theorem resolveStopCore_eq (sim : String → String → Rat)
    (names : List String) (label : String) (h : label ≠ "") :
    resolveStopCore sim names label =
      match names.find? (fun s => pyLower s == (pyLower (pyStrip label))) with
      | some s => some s
      | none =>
        match getCloseMatch sim (pyLower (pyStrip label)) half
            (names.map pyLower) with
        | some m => names.reverse.find? (fun s => pyLower s == m)
        | none => none := by
  unfold resolveStopCore
  rw [if_neg h]

theorem resolveStopCore_exact (sim : String → String → Rat)
    (names : List String) (label s : String) (h : label ≠ "")
    (hfind : names.find? (fun c => pyLower c == (pyLower (pyStrip label))) = some s) :
    resolveStopCore sim names label = some s := by
  rw [resolveStopCore_eq sim names label h, hfind]

theorem resolveStopCore_fuzzy (sim : String → String → Rat)
    (names : List String) (label s : String) (h : label ≠ "")
    (hfind : names.find? (fun c => pyLower c == (pyLower (pyStrip label))) = none)
    (hres : resolveStopCore sim names label = some s) :
    s ∈ names ∧ half ≤ sim (pyLower (pyStrip label)) (pyLower s) := by
  rw [resolveStopCore_eq sim names label h, hfind] at hres
  cases hg : getCloseMatch sim (pyLower (pyStrip label)) half
      (names.map pyLower) with
  | none =>
    rw [hg] at hres
    have hres : (none : Option String) = some s := hres
    exact Option.noConfusion hres
  | some m =>
    rw [hg] at hres
    have hres : names.reverse.find? (fun c => pyLower c == m) = some s := hres
    have hmem : s ∈ names := List.mem_reverse.mp (List.mem_of_find?_eq_some hres)
    have hpred := List.find?_some hres
    have hsm : pyLower s = m := by simpa using hpred
    obtain ⟨_, h2⟩ := getCloseMatch_mem sim (pyLower (pyStrip label)) half
      (names.map pyLower) m hg
    exact ⟨hmem, hsm ▸ h2⟩

theorem resolveStopCore_below_none (sim : String → String → Rat)
    (names : List String) (label : String) (h : label ≠ "")
    (hfind : names.find? (fun c => pyLower c == (pyLower (pyStrip label))) = none)
    (hall : ∀ c ∈ names, sim (pyLower (pyStrip label)) (pyLower c) < half) :
    resolveStopCore sim names label = none := by
  rw [resolveStopCore_eq sim names label h, hfind]
  have hgc : getCloseMatch sim (pyLower (pyStrip label)) half
      (names.map pyLower) = none := by
    apply getCloseMatch_none_of
    intro c hc
    obtain ⟨c0, hc0, rfl⟩ := List.mem_map.mp hc
    exact hall c0 hc0
  rw [hgc]

theorem resolveStopCore_mem (sim : String → String → Rat)
    (names : List String) (label s : String)
    (hres : resolveStopCore sim names label = some s) : s ∈ names := by
  by_cases h : label = ""
  · unfold resolveStopCore at hres
    rw [if_pos h] at hres
    exact Option.noConfusion hres
  · rw [resolveStopCore_eq sim names label h] at hres
    cases hfind : names.find? (fun c => pyLower c == (pyLower (pyStrip label))) with
    | some s0 =>
      rw [hfind] at hres
      have hres : some s0 = some s := hres
      exact (Option.some.inj hres) ▸ List.mem_of_find?_eq_some hfind
    | none =>
      rw [hfind] at hres
      cases hg : getCloseMatch sim (pyLower (pyStrip label)) half
          (names.map pyLower) with
      | none =>
        rw [hg] at hres
        have hres : (none : Option String) = some s := hres
        exact Option.noConfusion hres
      | some m =>
        rw [hg] at hres
        have hres : names.reverse.find? (fun c => pyLower c == m) = some s := hres
        exact List.mem_reverse.mp (List.mem_of_find?_eq_some hres)

theorem resolve_building_eq (sim : String → String → Rat) (L : Loader)
    (name : String) (h : name ≠ "") :
    resolve_building sim L name =
      match dictGet? L.buildings_by_name (norm name) with
      | some b => some b
      | none =>
        match (dictGet? L.alias_to_building_key (norm name)).bind
            (fun ak => dictGet? L.buildings_by_name ak) with
        | some b => some b
        | none =>
          (getCloseMatch sim (norm name) threeFifths
              (dictKeys L.buildings_by_name)).bind
            (fun m => dictGet? L.buildings_by_name m) := by
  unfold resolve_building
  rw [if_neg h]

theorem resolve_building_fuzzy (sim : String → String → Rat) (L : Loader)
    (name : String) (b : Building) (h : name ≠ "")
    (h1 : dictGet? L.buildings_by_name (norm name) = none)
    (h2 : (dictGet? L.alias_to_building_key (norm name)).bind
        (fun ak => dictGet? L.buildings_by_name ak) = none)
    (hres : resolve_building sim L name = some b) :
    ∃ m ∈ dictKeys L.buildings_by_name, threeFifths ≤ sim (norm name) m := by
  rw [resolve_building_eq sim L name h, h1, h2] at hres
  cases hg : getCloseMatch sim (norm name) threeFifths
      (dictKeys L.buildings_by_name) with
  | none =>
    rw [hg] at hres
    have hres : (none : Option Building) = some b := hres
    exact Option.noConfusion hres
  | some m =>
    obtain ⟨hm, hc⟩ := getCloseMatch_mem sim (norm name) threeFifths
      (dictKeys L.buildings_by_name) m hg
    exact ⟨m, hm, hc⟩

theorem resolve_building_below_none (sim : String → String → Rat)
    (L : Loader) (name : String) (h : name ≠ "")
    (h1 : dictGet? L.buildings_by_name (norm name) = none)
    (h2 : (dictGet? L.alias_to_building_key (norm name)).bind
        (fun ak => dictGet? L.buildings_by_name ak) = none)
    (hall : ∀ c ∈ dictKeys L.buildings_by_name, sim (norm name) c < threeFifths) :
    resolve_building sim L name = none := by
  rw [resolve_building_eq sim L name h, h1, h2,
    getCloseMatch_none_of sim (norm name) threeFifths
      (dictKeys L.buildings_by_name) hall]
  rfl

/-- C8: after the index build, the edge → route-ids index is symmetric
(the set stored for `(a, b)` equals the set stored for `(b, a)`, including
the empty default), and every node of the stop graph is a canonical stop
name: it is in `route_stop_names` and appears (stripped, nonempty) in the
stop list of at least one route. -/
theorem C8_index_symmetry_nodes (sim : String → String → Rat)
    (rawBuildings : List (String × List RawBuilding))
    (rawRoutes : List RawRoute) (L : Loader)
    (hL : L = buildLoader sim rawBuildings rawRoutes) :
    (∀ a b : String,
      dictGetD L.edge_to_routes (a, b) [] = dictGetD L.edge_to_routes (b, a) []) ∧
    (∀ u ∈ dictKeys L.stop_graph,
      u ∈ L.route_stop_names ∧ ∃ r ∈ rawRoutes, u ∈ routeStops r ∧ u ≠ "") := by
  subst hL
  have h := buildGraphEdges_inv rawRoutes
  refine ⟨h.1, ?_⟩
  intro u hu
  have h2 := h.2.1 u hu
  exact ⟨(mem_route_stop_names sim rawBuildings rawRoutes u).mpr h2, h2⟩

/-- Witness for C8 on a concrete one-route dataset. -/
theorem C8_index_symmetry_nodes_witness :
    (dictGetD (buildLoader (fun _ _ => (0 : Rat)) []
        [⟨"A", ["x", "y"]⟩]).edge_to_routes ("x", "y") [] =
      dictGetD (buildLoader (fun _ _ => (0 : Rat)) []
        [⟨"A", ["x", "y"]⟩]).edge_to_routes ("y", "x") []) ∧
    ("x" ∈ (buildLoader (fun _ _ => (0 : Rat)) []
        [⟨"A", ["x", "y"]⟩]).route_stop_names ∧
      ∃ r ∈ [(⟨"A", ["x", "y"]⟩ : RawRoute)], "x" ∈ routeStops r ∧ "x" ≠ "") := by
  have h := C8_index_symmetry_nodes (fun _ _ => (0 : Rat)) []
    [⟨"A", ["x", "y"]⟩]
    (buildLoader (fun _ _ => (0 : Rat)) [] [⟨"A", ["x", "y"]⟩]) rfl
  exact ⟨h.1 "x" "y", h.2 "x" (by decide)⟩

/-- C9: stop resolution tries a case-insensitive exact match against the
canonical stop list first and returns it on success; only when no exact
match exists does it fall back to the fuzzy match, whose accepted
candidate always has similarity at least the cutoff 1/2, and which returns
`none` when every candidate is below the cutoff; every `some` result is a
stop name drawn from the route dataset.  In building resolution the fuzzy
stage likewise accepts only candidates with similarity at least the cutoff
3/5 and returns `none` when all candidates are below it. -/
theorem C9_resolution_matching (sim : String → String → Rat)
    (rawBuildings : List (String × List RawBuilding))
    (rawRoutes : List RawRoute) (L : Loader)
    (hL : L = buildLoader sim rawBuildings rawRoutes)
    (label bname : String) :
    (∀ s, label ≠ "" →
      L.route_stop_names.find? (fun c => pyLower c == (pyLower (pyStrip label)))
        = some s →
      resolve_stop_name sim L label = some s) ∧
    (∀ s, label ≠ "" →
      L.route_stop_names.find? (fun c => pyLower c == (pyLower (pyStrip label)))
        = none →
      resolve_stop_name sim L label = some s →
      (1/2 : Rat) ≤ sim (pyLower (pyStrip label)) (pyLower s)) ∧
    (label ≠ "" →
      L.route_stop_names.find? (fun c => pyLower c == (pyLower (pyStrip label)))
        = none →
      (∀ c ∈ L.route_stop_names, sim (pyLower (pyStrip label)) (pyLower c) < 1/2) →
      resolve_stop_name sim L label = none) ∧
    (∀ s, resolve_stop_name sim L label = some s →
      ∃ r ∈ rawRoutes, s ∈ routeStops r ∧ s ≠ "") ∧
    (∀ b : Building, bname ≠ "" →
      dictGet? L.buildings_by_name (norm bname) = none →
      (dictGet? L.alias_to_building_key (norm bname)).bind
        (fun ak => dictGet? L.buildings_by_name ak) = none →
      resolve_building sim L bname = some b →
      ∃ m ∈ dictKeys L.buildings_by_name, (3/5 : Rat) ≤ sim (norm bname) m) ∧
    (bname ≠ "" →
      dictGet? L.buildings_by_name (norm bname) = none →
      (dictGet? L.alias_to_building_key (norm bname)).bind
        (fun ak => dictGet? L.buildings_by_name ak) = none →
      (∀ c ∈ dictKeys L.buildings_by_name, sim (norm bname) c < 3/5) →
      resolve_building sim L bname = none) := by
  subst hL
  refine ⟨?_, ?_, ?_, ?_, ?_, ?_⟩
  · intro s h hfind
    exact resolveStopCore_exact sim _ label s h hfind
  · intro s h hfind hres
    have := (resolveStopCore_fuzzy sim _ label s h hfind hres).2
    rwa [half_eq] at this
  · intro h hfind hall
    refine resolveStopCore_below_none sim _ label h hfind ?_
    intro c hc
    rw [half_eq]
    exact hall c hc
  · intro s hres
    exact (mem_route_stop_names sim rawBuildings rawRoutes s).mp
      (resolveStopCore_mem sim _ label s hres)
  · intro b h h1 h2 hres
    obtain ⟨m, hm, hc⟩ := resolve_building_fuzzy sim _ bname b h h1 h2 hres
    rw [threeFifths_eq] at hc
    exact ⟨m, hm, hc⟩
  · intro h h1 h2 hall
    refine resolve_building_below_none sim _ bname h h1 h2 ?_
    intro c hc
    rw [threeFifths_eq]
    exact hall c hc

/-- Witness for C9: the exact-match branch on a concrete dataset. -/
theorem C9_resolution_matching_witness :
    resolve_stop_name (fun _ _ => (0 : Rat))
      (buildLoader (fun _ _ => (0 : Rat)) [] [⟨"A", ["x"]⟩]) "x"
      = some "x" :=
  (C9_resolution_matching (fun _ _ => (0 : Rat)) [] [⟨"A", ["x"]⟩]
    (buildLoader (fun _ _ => (0 : Rat)) [] [⟨"A", ["x"]⟩]) rfl "x" "q").1
    "x" (by decide) (by decide)

/-! ## C6: `plan(a, a)` on a single-stop place -/

theorem buildingStopMap_mem (sim : String → String → Rat)
    (names : List String) (bbn : List (String × Building)) (k x : String)
    (hx : x ∈ dictGetD (buildBuildingStopMap sim names bbn) k []) :
    x ∈ names := by
  unfold dictGetD at hx
  cases hg : dictGet? (buildBuildingStopMap sim names bbn) k with
  | none => rw [hg] at hx; simp at hx
  | some v =>
    rw [hg] at hx
    simp only [Option.getD_some] at hx
    obtain ⟨hmem, -⟩ := dictGet?_mem _ k v hg
    obtain ⟨kb, hkb, heq⟩ := List.mem_map.mp hmem
    have hv : v = dedupSeen []
        (kb.2.bus_stops.filterMap (resolveStopCore sim names)) :=
      (congrArg Prod.snd heq).symm
    rw [hv] at hx
    obtain ⟨hx1, -⟩ := (mem_dedupSeen x _ []).mp hx
    obtain ⟨label, hlabel, hres⟩ := List.mem_filterMap.mp hx1
    exact resolveStopCore_mem sim names label x hres

theorem resolve_place_stops_names (sim : String → String → Rat)
    (rawBuildings : List (String × List RawBuilding))
    (rawRoutes : List RawRoute) (a : String) (b : Building)
    (stops : List String)
    (h : resolve_place sim (buildLoader sim rawBuildings rawRoutes) a
      = some (b, stops)) :
    ∀ x ∈ stops,
      x ∈ (buildLoader sim rawBuildings rawRoutes).route_stop_names := by
  intro x hx
  unfold resolve_place at h
  by_cases ha : a = ""
  · rw [if_pos ha] at h
    exact Option.noConfusion h
  · rw [if_neg ha] at h
    cases hb : resolve_building sim (buildLoader sim rawBuildings rawRoutes) a with
    | some b0 =>
      rw [hb] at h
      have h : some (b0,
          get_building_stops (buildLoader sim rawBuildings rawRoutes) b0)
          = some (b, stops) := h
      have hst : get_building_stops (buildLoader sim rawBuildings rawRoutes) b0
          = stops := congrArg Prod.snd (Option.some.inj h)
      rw [← hst] at hx
      exact buildingStopMap_mem sim _ _ (norm b0.name) x hx
    | none =>
      rw [hb] at h
      cases hs : resolve_stop_name sim (buildLoader sim rawBuildings rawRoutes) a with
      | none =>
        rw [hs] at h
        have h : (none : Option (Building × List String)) = some (b, stops) := h
        exact Option.noConfusion h
      | some st =>
        rw [hs] at h
        have h : some ((⟨st, none, [st]⟩ : Building), [st]) = some (b, stops) := h
        have hst : [st] = stops := congrArg Prod.snd (Option.some.inj h)
        rw [← hst] at hx
        have hxst : x = st := List.mem_singleton.mp hx
        rw [hxst]
        exact resolveStopCore_mem sim _ a st hs

theorem directSub_self (stops : List String) (s : String) (h : s ∈ stops) :
    directSub stops s s = [s] := by
  simp only [directSub]
  rw [if_pos (le_refl _), Nat.sub_self]
  have hlt : stops.indexOf s < stops.length := List.indexOf_lt_length.mpr h
  rw [List.drop_eq_getElem_cons hlt]
  simp [List.getElem_indexOf hlt]

theorem bestBy_singleton {α β : Type} (f : α → Option β) (len : β → Nat)
    (x : α) : bestBy f len [x] none = f x := by
  cases hf : f x with
  | none => rw [bestBy_cons_none f len x [] none hf]; rfl
  | some y => rw [bestBy_cons_some_none f len x [] y hf]; rfl

/-- C6 counterexample: on the one-route dataset `A : [x]`, the text `x`
resolves to the pseudo-building for stop `x` with stop set `[x]`, and
`plan(x, x)` takes the direct branch, so its `legs` list is the one-leg
list `[⟨some A, x, x, [x]⟩]` — not empty as the spec states. -/
theorem C6_counterexample :
    plan_building_to_building (fun _ _ => (0 : Rat))
        (buildLoader (fun _ _ => (0 : Rat)) [] [⟨"A", ["x"]⟩]) "x" "x" =
      .busRoute ⟨"x", none, ["x"]⟩ ⟨"x", none, ["x"]⟩ "x" "x" ["x"]
        [⟨some "A", "x", "x", ["x"]⟩] ∧
    ([⟨some "A", "x", "x", ["x"]⟩] : List Leg) ≠ [] :=
  ⟨by decide, by decide⟩

/-- C6 amended: `plan(a, a)` where `a` resolves to a place with the single
stop `s` (over the built loader) yields the direct-branch BusRoute with
`stop_path = [s]` and exactly one leg `⟨some rid, s, s, [s]⟩`, where `rid`
names a route of the dataset containing `s` — the legs list is never
empty. -/
theorem C6_amended (sim : String → String → Rat)
    (rawBuildings : List (String × List RawBuilding))
    (rawRoutes : List RawRoute) (a : String) (b : Building) (s : String)
    (h : resolve_place sim (buildLoader sim rawBuildings rawRoutes) a
      = some (b, [s])) :
    ∃ rid, plan_building_to_building sim
        (buildLoader sim rawBuildings rawRoutes) a a =
        .busRoute b b s s [s] [⟨some rid, s, s, [s]⟩] ∧
      ∃ r ∈ rawRoutes, rid = r.route_id ∧ s ∈ routeStops r := by
  have hsname := resolve_place_stops_names sim rawBuildings rawRoutes a b [s]
    h s (List.mem_singleton_self s)
  obtain ⟨r, hr, hsr, -⟩ :=
    (mem_route_stop_names sim rawBuildings rawRoutes s).mp hsname
  have hne : direct_path_between_stops rawRoutes s s ≠ none := by
    intro hnone
    exact ((direct_path_none_iff rawRoutes s s).mp hnone) r hr ⟨hsr, hsr⟩
  cases hd : direct_path_between_stops rawRoutes s s with
  | none => exact absurd hd hne
  | some rp =>
    obtain ⟨rid0, p0⟩ := rp
    obtain ⟨⟨r1, hr1, hrid, hs1, -, hp⟩, -⟩ :=
      direct_path_some rawRoutes s s rid0 p0 hd
    have hp0 : p0 = [s] := by rw [hp, directSub_self _ _ hs1]
    have hbd : bestDirect rawRoutes [s] [s] = some (s, s, rid0, p0) := by
      unfold bestDirect
      have hpl : pairList [s] [s] = [(s, s)] := rfl
      rw [hpl, bestBy_singleton]
      show (direct_path_between_stops rawRoutes s s).map _ = _
      rw [hd]
      rfl
    have hbd2 : bestDirect
        (buildLoader sim rawBuildings rawRoutes).routes [s] [s]
        = some (s, s, rid0, p0) := hbd
    have hplan := plan_eq_direct sim (buildLoader sim rawBuildings rawRoutes)
      a a b b [s] [s] s s rid0 p0 h (by simp) h (by simp) hbd2
    rw [hp0] at hplan
    refine ⟨rid0, ?_, r1, hr1, hrid, hs1⟩
    exact hplan

/-! ## Concrete witnesses for the remaining claim theorems -/

/-- Witness for C1 on a one-route dataset `A : [x, y]`, origin text `x`,
destination text `y`. -/
theorem C1_direct_route_priority_witness :
    ∃ s t rid p,
      bestDirect (buildLoader (fun _ _ => (0 : Rat)) []
          [⟨"A", ["x", "y"]⟩]).routes ["x"] ["y"] = some (s, t, rid, p) ∧
      plan_building_to_building (fun _ _ => (0 : Rat))
        (buildLoader (fun _ _ => (0 : Rat)) [] [⟨"A", ["x", "y"]⟩]) "x" "y" =
        .busRoute ⟨"x", none, ["x"]⟩ ⟨"y", none, ["y"]⟩ s t p
          [⟨some rid, p.headD "", p.getLastD "", p⟩] ∧
      (∀ s' ∈ ["x"], ∀ t' ∈ ["y"],
        ∀ r ∈ (buildLoader (fun _ _ => (0 : Rat)) []
          [⟨"A", ["x", "y"]⟩]).routes,
        s' ∈ routeStops r → t' ∈ routeStops r →
        p.length ≤ (directSub (routeStops r) s' t').length) :=
  C1_direct_route_priority (fun _ _ => (0 : Rat))
    (buildLoader (fun _ _ => (0 : Rat)) [] [⟨"A", ["x", "y"]⟩]) "x" "y"
    ⟨"x", none, ["x"]⟩ ⟨"y", none, ["y"]⟩ ["x"] ["y"]
    (by decide) (by decide) (by decide) (by decide) (by decide)

/-- Witness for C2: the origin-not-found branch at the empty input. -/
theorem C2_error_exactly_witness :
    plan_building_to_building (fun _ _ => (0 : Rat))
      (buildLoader (fun _ _ => (0 : Rat)) [] []) "" "" =
      .planError (msgNotFound "") :=
  (C2_error_exactly (fun _ _ => (0 : Rat))
    (buildLoader (fun _ _ => (0 : Rat)) [] []) "" "").2.2.1 (by decide)

/-- Witness for C3 on a one-route dataset: the chosen BFS path `[x, y]`
is compared against the concrete walk `[x, y]`. -/
theorem C3_bfs_optimality_witness :
    (best_bfs_path (buildLoader (fun _ _ => (0 : Rat)) []
        [⟨"A", ["x", "y"]⟩]).stop_graph ["x"] ["y"]
      = some ("x", "y", ["x", "y"])) ∧
    (["x", "y"] : List String).length - 1 ≤
      (["x", "y"] : List String).length - 1 := by
  have h : best_bfs_path (buildLoader (fun _ _ => (0 : Rat)) []
      [⟨"A", ["x", "y"]⟩]).stop_graph ["x"] ["y"]
      = some ("x", "y", ["x", "y"]) := by decide
  refine ⟨h, ?_⟩
  have hw : Walk (buildLoader (fun _ _ => (0 : Rat)) []
      [⟨"A", ["x", "y"]⟩]).stop_graph "x" "y" ["x", "y"] :=
    Walk.cons (by decide) (Walk.single "y")
  exact (C3_bfs_optimality (fun _ _ => (0 : Rat)) [] [⟨"A", ["x", "y"]⟩]
    ["x"] ["y"] "x" "y" ["x", "y"] h).1 ["x", "y"] hw

/-- Witness for C5 amended: on the empty edge index the single produced
leg has no route id, and its edge is covered by no route. -/
theorem C5_amended_witness :
    edgeRoutesOf [] ("a", "b") = [] :=
  (C5_amended [] ["a", "b"]).1 ⟨none, "a", "b", ["a", "b"]⟩
    (by
      rw [← build_legs_fuel_eq [] 2 2 ["a", "b"] (by decide) (by decide)]
      decide)
    rfl ("a", "b") (by decide)

/-- Witness for C7 amended: on the empty graph with distinct endpoints
BFS returns no path. -/
theorem C7_amended_witness :
    shortest_path_between_stops ([] : Graph) "a" "b" = none :=
  (C7_amended.1 [] "a" "b").mpr ⟨by decide, Or.inl (by decide)⟩

/-- Witness for C10 on the direct plan of the one-route dataset. -/
theorem C10_busroute_endpoints_witness :
    (["x", "y"] : List String) ≠ [] ∧
    (["x", "y"] : List String).head? = some "x" ∧
    (["x", "y"] : List String).getLast? = some "y" ∧
    ∃ os ds,
      resolve_place (fun _ _ => (0 : Rat))
        (buildLoader (fun _ _ => (0 : Rat)) [] [⟨"A", ["x", "y"]⟩]) "x"
        = some (⟨"x", none, ["x"]⟩, os) ∧
      resolve_place (fun _ _ => (0 : Rat))
        (buildLoader (fun _ _ => (0 : Rat)) [] [⟨"A", ["x", "y"]⟩]) "y"
        = some (⟨"y", none, ["y"]⟩, ds) ∧ "x" ∈ os ∧ "y" ∈ ds :=
  C10_busroute_endpoints (fun _ _ => (0 : Rat))
    (buildLoader (fun _ _ => (0 : Rat)) [] [⟨"A", ["x", "y"]⟩]) "x" "y"
    ⟨"x", none, ["x"]⟩ ⟨"y", none, ["y"]⟩ "x" "y" ["x", "y"]
    [⟨some "A", "x", "y", ["x", "y"]⟩] (by decide)

/-- Witness for C6 amended, on the dataset of the counterexample. -/
theorem C6_amended_witness :
    (resolve_place (fun _ _ => (0 : Rat))
        (buildLoader (fun _ _ => (0 : Rat)) [] [⟨"A", ["x"]⟩]) "x"
      = some (⟨"x", none, ["x"]⟩, ["x"])) ∧
    ∃ rid, plan_building_to_building (fun _ _ => (0 : Rat))
        (buildLoader (fun _ _ => (0 : Rat)) [] [⟨"A", ["x"]⟩]) "x" "x" =
        .busRoute ⟨"x", none, ["x"]⟩ ⟨"x", none, ["x"]⟩ "x" "x" ["x"]
          [⟨some rid, "x", "x", ["x"]⟩] ∧
      ∃ r ∈ [(⟨"A", ["x"]⟩ : RawRoute)], rid = r.route_id ∧
        "x" ∈ routeStops r :=
  ⟨by decide, C6_amended (fun _ _ => (0 : Rat)) [] [⟨"A", ["x"]⟩] "x"
    ⟨"x", none, ["x"]⟩ "x" (by decide)⟩

end RUPath
